import Mathlib

/-!
# nextpnr (leuctra architecture): routing-graph core

A shallow embedding of `leuctra/arch.cc` (name resolution, bel pins and the
uphill/downhill pip iterator) and of `gui/sparsevector.h` (the growable arena), together
with the properties proved about them.

Conventions of the embedding

* C++ `int` values are `Int`; arrays of the device database (`num_x` plus a pointer `x`)
  are `List`s, the count being the length of the list.
* A read outside an array is undefined behaviour in C++ and is the outcome `Res.ub`.
* A failed `NPNR_ASSERT` or an uncaught exception is the outcome `Res.fatal`.
* `while (true)` loops and the driver that steps an iterator take an iteration budget;
  an exhausted budget is the outcome `Res.nofuel`.
* `std::string` is `List Char`.
* `size_t` and `unsigned long long` are 64-bit words: arithmetic on them is taken
  modulo `2 ^ 64`.
-/

namespace Leuctra

/-! ## Outcomes -/

/-- Outcome of running a piece of the program. -/
inductive Res (α : Type) where
  | ok (a : α)
  | fatal
  | ub
  | nofuel
deriving DecidableEq, Repr

/-- Sequencing of outcomes: the first abnormal outcome wins. -/
def Res.bind {α β : Type} (r : Res α) (f : α → Res β) : Res β :=
  match r with
  | .ok a => f a
  | .fatal => .fatal
  | .ub => .ub
  | .nofuel => .nofuel

/-- Whether a run returned normally. -/
def Res.isOk {α : Type} (r : Res α) : Bool :=
  match r with
  | .ok _ => true
  | _ => false

/-- Array read `a[i]` with a C++ `int` index. -/
def readAt {α : Type} (a : List α) (i : Int) : Option α :=
  if i < 0 then none else a[i.toNat]?

/-- Array read as an outcome: a read outside the array is undefined behaviour. -/
def readRes {α : Type} (a : List α) (i : Int) : Res α :=
  match readAt a i with
  | some v => .ok v
  | none => .ub

/-! ## Data model (declarations of `archdefs.h` and of the device database) -/

/-- The type `std::string`. -/
abbrev Str := List Char

/-- Grid coordinate of a tile. -/
structure Location where
  x : Int
  y : Int
deriving DecidableEq, Repr

/-- Kind of a pip: intra-tile switch or cross-tile port connection. -/
inductive PipKind where
  | PIP_KIND_PIP
  | PIP_KIND_PORT
deriving DecidableEq, Repr

/-- Key of a bel. -/
structure BelId where
  location : Location
  index : Int
deriving DecidableEq, Repr

/-- Key of a wire. -/
structure WireId where
  location : Location
  index : Int
deriving DecidableEq, Repr

/-- Key of a pip. -/
structure PipId where
  location : Location
  kind : PipKind
  index : Int
  subindex : Int
deriving DecidableEq, Repr

/-- Modelled from the spec: the default-constructed `Location()`; its declaration is not
part of the sources. Both coordinates are the sentinel `-1`. -/
def Location.invalid : Location := ⟨-1, -1⟩

/-- Modelled from the spec: the default-constructed `BelId()`, the invalid key
("index = -1"); the declaration of `BelId` is not part of the sources. -/
def BelId.invalid : BelId := ⟨Location.invalid, -1⟩

/-- Modelled from the spec: the default-constructed `WireId()`, the invalid key;
the declaration of `WireId` is not part of the sources. -/
def WireId.invalid : WireId := ⟨Location.invalid, -1⟩

/-- Modelled from the spec: the default-constructed `PipId()`, the invalid key;
the declaration of `PipId` is not part of the sources. -/
def PipId.invalid : PipId := ⟨Location.invalid, .PIP_KIND_PIP, -1, -1⟩

/-- Entry of a wire's port cross-reference list. -/
structure PortXrefPOD where
  port_idx : Int
  wire_idx : Int
deriving DecidableEq, Repr

/-- Wire definition of a tile type, with its cross-reference lists. -/
structure TileTypeWirePOD where
  name_id : Int
  pip_src_xrefs : List Int
  pip_dst_xrefs : List Int
  port_xrefs : List PortXrefPOD
deriving DecidableEq, Repr

/-- Entry of a tile's runtime connection table; `port_idx = -1` means unconnected. -/
structure ConnPOD where
  tile_x : Int
  tile_y : Int
  port_idx : Int
deriving DecidableEq, Repr

/-- Runtime state of a tile. -/
structure TilePOD where
  conns : List ConnPOD
deriving DecidableEq, Repr

/-- Bel definition of a tile type: its name and the wire of each pin. -/
structure TileTypeBelPOD where
  name_id : Int
  pin_wires : List Int
deriving DecidableEq, Repr

/-- Pin definition of a bel type. -/
structure BelTypePinPOD where
  name_id : Int
  flags : Int
deriving DecidableEq, Repr

/-- Bel type: its pins. -/
structure BelTypePOD where
  pins : List BelTypePinPOD
deriving DecidableEq, Repr

/-- Port definition of a tile type. -/
structure TileTypePortPOD where
  name_id : Int
deriving DecidableEq, Repr

/-- Tile type blueprint. -/
structure TileTypePOD where
  bels : List TileTypeBelPOD
  wires : List TileTypeWirePOD
  ports : List TileTypePortPOD
deriving DecidableEq, Repr

/-- The parts of `Arch` that `arch.cc` uses and that are declared elsewhere
(`arch.h`, `nextpnr.h`), taken as parameters. -/
structure Arch where
  /-- Accessor `getTileTypeWire(wire)`: the wire definition behind a wire key. -/
  getTileTypeWire : WireId → TileTypeWirePOD
  /-- Accessor `getTile(location)`: the runtime state of a tile. -/
  getTile : Location → TilePOD
  /-- Accessor `getTileType(x, y)`: the blueprint of a tile; `none` outside the grid. -/
  getTileType : Int → Int → Option TileTypePOD
  /-- Method `IdString::str`: the string of an identifier. -/
  str : Int → Str
  /-- Method `id(string)`: the identifier of a string. -/
  id : Str → Int
  /-- Accessor `getPipSrcWire(pip)`. -/
  getPipSrcWire : PipId → WireId
  /-- Accessor `getPipDstWire(pip)`. -/
  getPipDstWire : PipId → WireId
  /-- Accessor `getWireBasename(wire)`. -/
  getWireBasename : WireId → Int
  /-- Accessor `getBelTypeInfo(bel)`. -/
  getBelTypeInfo : BelId → BelTypePOD
  /-- Accessor `getTileTypeBel(bel)`. -/
  getTileTypeBel : BelId → TileTypeBelPOD
  /-- Field `device_info->width`. -/
  width : Int
  /-- The pips that an `AllPipRange` from tile cursor `b` to tile cursor `e` visits. -/
  allPipRange : Int → Int → List PipId

/-! ## The pip iterator -/

/-- Stage of the iterator. -/
inductive Stage where
  | STAGE_PIPS
  | STAGE_PORTS
  | STAGE_END
deriving DecidableEq, Repr

/-- Direction of the traversal. -/
inductive Mode where
  | MODE_UPHILL
  | MODE_DOWNHILL
deriving DecidableEq, Repr

/-- State of a `PipIterator`. -/
structure PipIterator where
  wire : WireId
  mode : Mode
  stage : Stage
  cursor_index : Int
deriving DecidableEq, Repr

/-- The `while (true)` loop of `PipIterator::operator++` (stage PORTS), started with
cursor `c`; it yields the stage and cursor it leaves behind. Each iteration costs one
unit of the budget. -/
def skipPorts (ttw : TileTypeWirePOD) (tile : TilePOD) : Nat → Int → Res (Stage × Int)
  | 0, _ => .nofuel
  | fuel + 1, c =>
    if c = (ttw.port_xrefs.length : Int) then .ok (.STAGE_END, 0)
    else
      match readAt ttw.port_xrefs c with
      | none => .ub
      | some xref =>
        match readAt tile.conns xref.port_idx with
        | none => .ub
        | some conn =>
          if conn.port_idx ≠ -1 then .ok (.STAGE_PORTS, c)
          else skipPorts ttw tile fuel (c + 1)

/-- Method `PipIterator::operator++`. -/
def PipIterator.operatorInc (arch : Arch) (fuel : Nat) (it : PipIterator) : Res PipIterator :=
  let c := it.cursor_index + 1
  let ttw := arch.getTileTypeWire it.wire
  let num : Int :=
    if it.mode = .MODE_UPHILL then ttw.pip_dst_xrefs.length else ttw.pip_src_xrefs.length
  let it1 : PipIterator :=
    if it.stage = .STAGE_PIPS then
      if c = num then { it with cursor_index := 0, stage := .STAGE_PORTS }
      else { it with cursor_index := c }
    else { it with cursor_index := c }
  if it1.stage = .STAGE_PORTS then
    (skipPorts ttw (arch.getTile it.wire.location) fuel it1.cursor_index).bind
      fun r => .ok { it1 with stage := r.1, cursor_index := r.2 }
  else .ok it1

/-- Method `PipIterator::operator*`. -/
def PipIterator.operatorDeref (arch : Arch) (it : PipIterator) : Res PipId :=
  let ret : PipId := { PipId.invalid with location := it.wire.location }
  let ttw := arch.getTileTypeWire it.wire
  if it.mode = .MODE_UPHILL then
    if it.stage = .STAGE_PIPS then
      (readRes ttw.pip_dst_xrefs it.cursor_index).bind
        fun i => .ok { ret with kind := .PIP_KIND_PIP, index := i }
    else
      (readRes ttw.port_xrefs it.cursor_index).bind
        fun xref => .ok { ret with kind := .PIP_KIND_PORT, index := xref.port_idx,
                                   subindex := xref.wire_idx }
  else
    if it.stage = .STAGE_PIPS then
      (readRes ttw.pip_src_xrefs it.cursor_index).bind
        fun i => .ok { ret with kind := .PIP_KIND_PIP, index := i }
    else
      let tile := arch.getTile it.wire.location
      (readRes ttw.port_xrefs it.cursor_index).bind fun xref =>
      (readRes tile.conns xref.port_idx).bind fun conn =>
        .ok { ret with kind := .PIP_KIND_PORT, location := ⟨conn.tile_x, conn.tile_y⟩,
                       index := conn.port_idx, subindex := xref.wire_idx }

/-- The iterator a traversal starts from: stage PIPS, cursor `-1`. -/
def PipIterator.start (w : WireId) (mode : Mode) : PipIterator :=
  { wire := w, mode := mode, stage := .STAGE_PIPS, cursor_index := -1 }

/-- Dereference and advance until stage END, collecting the pips; `n` bounds the number of
pips collected, `fuel` is the budget of each advance. -/
def collect (arch : Arch) (fuel : Nat) : Nat → PipIterator → Res (List PipId)
  | 0, _ => .nofuel
  | n + 1, it =>
    if it.stage = .STAGE_END then .ok []
    else
      (it.operatorDeref arch).bind fun p =>
      (it.operatorInc arch fuel).bind fun it1 =>
      (collect arch fuel n it1).bind fun ps => .ok (p :: ps)

/-- The traversal of a wire: start at stage PIPS with cursor `-1`, advance once, then
dereference and advance until stage END. -/
def traverse (arch : Arch) (fuel : Nat) (w : WireId) (mode : Mode) : Res (List PipId) :=
  ((PipIterator.start w mode).operatorInc arch fuel).bind (collect arch fuel fuel)

/-! ## What a traversal is expected to yield -/

/-- The intra-tile cross-reference list of a wire for a direction: `pip_dst_xrefs` for
UPHILL, `pip_src_xrefs` for DOWNHILL. -/
def pipXrefs (ttw : TileTypeWirePOD) (mode : Mode) : List Int :=
  if mode = .MODE_UPHILL then ttw.pip_dst_xrefs else ttw.pip_src_xrefs

/-- One PIP-kind pip per entry of an intra-tile cross-reference list, at the wire's tile. -/
def pipPart (w : WireId) (xs : List Int) : List PipId :=
  xs.map fun i => ⟨w.location, .PIP_KIND_PIP, i, -1⟩

/-- The connection-table entry of a port cross-reference, when its port is connected. -/
def connectedConn (tile : TilePOD) (x : PortXrefPOD) : Option ConnPOD :=
  match readAt tile.conns x.port_idx with
  | some conn => if conn.port_idx ≠ -1 then some conn else none
  | none => none

/-- The PORT-kind pip of a connected port cross-reference: at the wire's own tile for
UPHILL, at the tile named by the connection-table entry for DOWNHILL. -/
def portPip (w : WireId) (mode : Mode) (x : PortXrefPOD) (conn : ConnPOD) : PipId :=
  match mode with
  | .MODE_UPHILL => ⟨w.location, .PIP_KIND_PORT, x.port_idx, x.wire_idx⟩
  | .MODE_DOWNHILL => ⟨⟨conn.tile_x, conn.tile_y⟩, .PIP_KIND_PORT, conn.port_idx, x.wire_idx⟩

/-- One PORT-kind pip per connected entry of a port cross-reference list, in list order. -/
def portPart (tile : TilePOD) (w : WireId) (mode : Mode) (xs : List PortXrefPOD) : List PipId :=
  xs.filterMap fun x => (connectedConn tile x).map (portPip w mode x)

/-- Every port cross-reference of the wire names a port inside the connection table of
the wire's tile. -/
def WireOk (arch : Arch) (w : WireId) : Prop :=
  ∀ x ∈ (arch.getTileTypeWire w).port_xrefs,
    0 ≤ x.port_idx ∧ x.port_idx < ((arch.getTile w.location).conns.length : Int)

instance (arch : Arch) (w : WireId) : Decidable (WireOk arch w) := by
  unfold WireOk; infer_instance

/-! ## Strings (C++ standard library) -/

/-- Scan for the character `c`; `i` is the position of the head of the list. -/
def findFrom (c : Char) : List Char → Nat → Option Nat
  | [], _ => none
  | x :: xs, i => if x = c then some i else findFrom c xs (i + 1)

/-- The call `name.find(c, pos)`: position of the first `c` at or after `pos`; `none` is
`std::string::npos`. -/
def find (name : Str) (c : Char) (pos : Nat) : Option Nat :=
  findFrom c (name.drop pos) pos

/-- The call `name.substr(pos, len)`; it throws `std::out_of_range` when `pos` exceeds the
size of the string. -/
def substr (name : Str) (pos len : Nat) : Res Str :=
  if name.length < pos then .fatal else .ok ((name.drop pos).take len)

/-- The call `name.substr(pos)`. -/
def substrFrom (name : Str) (pos : Nat) : Res Str :=
  if name.length < pos then .fatal else .ok (name.drop pos)

/-- Whitespace in the sense of `isspace` (C locale). -/
def isSpace (c : Char) : Bool :=
  c = ' ' || c = '\t' || c = '\n' || c = Char.ofNat 11 || c = Char.ofNat 12 || c = '\r'

/-- Value of a run of decimal digits. -/
def digitsValue (ds : List Char) : Nat :=
  ds.foldl (fun acc d => acc * 10 + (d.toNat - 48)) 0

/-- The digits part of `std::stoi`: the longest run of decimal digits is the magnitude,
`neg` tells whether a minus sign came before it. No digit at all is
`std::invalid_argument`, a value that is no `int` is `std::out_of_range`. -/
def stoiDigits (neg : Bool) (s : Str) : Res Int :=
  let ds := s.takeWhile Char.isDigit
  if ds = [] then .fatal
  else
    let v : Int := if neg then -(digitsValue ds : Int) else (digitsValue ds : Int)
    if -2147483648 ≤ v ∧ v ≤ 2147483647 then .ok v else .fatal

/-- The call `std::stoi(s)`: skip leading whitespace, read an optional sign and the longest
run of decimal digits, ignore what follows. -/
def stoi (s : Str) : Res Int :=
  let s1 := s.dropWhile isSpace
  if s1.head? = some '-' then stoiDigits true s1.tail
  else if s1.head? = some '+' then stoiDigits false s1.tail
  else stoiDigits false s1

/-- The call `std::to_string(x)` for an `int`: decimal digits, `-` in front of a negative
value. -/
def to_string (x : Int) : Str :=
  if x < 0 then '-' :: Nat.toDigits 10 x.natAbs else Nat.toDigits 10 x.toNat

/-! ## Name resolution -/

/-- Function `split_identifier_name`. -/
def split_identifier_name (name : Str) : Res (Int × Int × Str) :=
  match find name '/' 0 with
  | none => .fatal
  | some first_slash =>
    match find name '/' (first_slash + 1) with
    | none => .fatal
    | some second_slash =>
      (substr name 1 first_slash).bind fun sx =>
      (stoi sx).bind fun x =>
      (substr name (first_slash + 2) (second_slash - first_slash)).bind fun sy =>
      (stoi sy).bind fun y =>
      (substrFrom name (second_slash + 1)).bind fun basename =>
      .ok (x, y, basename)

/-- The canonical name `"X<x>/Y<y>/<local>"`. -/
def canonicalName (x y : Int) (loc : Str) : Str :=
  ['X'] ++ to_string x ++ ['/', 'Y'] ++ to_string y ++ ['/'] ++ loc

/-- A name cache (`std::unordered_map<IdString, Key>`): association list with distinct
keys. -/
abbrev Cache (κ : Type) := List (Int × κ)

/-- Lookup `cache.find(name)`. -/
def Cache.find {κ : Type} (c : Cache κ) (name : Int) : Option κ :=
  match c with
  | [] => none
  | (n, k) :: rest => if n = name then some k else Cache.find rest name

/-- Assignment `cache[name] = key`. -/
def Cache.assign {κ : Type} (c : Cache κ) (name : Int) (key : κ) : Cache κ :=
  (name, key) :: c.filter fun e => e.1 ≠ name

/-- The loop `for (i = 0; i < num; i++) if (defs[i].name_id == target) ...`: the first
index whose name identifier is `target`; `i` is the index of the head of the list. -/
def scanNames (target : Int) : List Int → Int → Option Int
  | [], _ => none
  | n :: rest, i => if n = target then some i else scanNames target rest (i + 1)

/-- Method `Arch::getBelByName`, with the cache `bel_by_name` passed explicitly. -/
def getBelByName (arch : Arch) (bel_by_name : Cache BelId) (name : Int) :
    Res (BelId × Cache BelId) :=
  match bel_by_name.find name with
  | some ret => .ok (ret, bel_by_name)
  | none =>
    (split_identifier_name (arch.str name)).bind fun r =>
      let loc : Location := ⟨r.1, r.2.1⟩
      let basename_id := arch.id r.2.2
      match arch.getTileType loc.x loc.y with
      | none => .fatal
      | some tt =>
        match scanNames basename_id (tt.bels.map fun b => b.name_id) 0 with
        | some i =>
          let ret : BelId := ⟨loc, i⟩
          .ok (ret, bel_by_name.assign name ret)
        | none => .ok (BelId.invalid, bel_by_name)

/-- Method `Arch::getWireByName`, with the cache `wire_by_name` passed explicitly. -/
def getWireByName (arch : Arch) (wire_by_name : Cache WireId) (name : Int) :
    Res (WireId × Cache WireId) :=
  match wire_by_name.find name with
  | some ret => .ok (ret, wire_by_name)
  | none =>
    (split_identifier_name (arch.str name)).bind fun r =>
      let loc : Location := ⟨r.1, r.2.1⟩
      let basename_id := arch.id r.2.2
      match arch.getTileType loc.x loc.y with
      | none => .fatal
      | some tt =>
        match scanNames basename_id (tt.wires.map fun w => w.name_id) 0 with
        | some i =>
          let ret : WireId := ⟨loc, i⟩
          .ok (ret, wire_by_name.assign name ret)
        | none => .ok (WireId.invalid, wire_by_name)

/-- Method `Arch::getBelPinWire`. -/
def getBelPinWire (arch : Arch) (bel : BelId) (pin : Int) : Res WireId :=
  if bel = BelId.invalid then .fatal
  else
    match scanNames pin ((arch.getBelTypeInfo bel).pins.map fun p => p.name_id) 0 with
    | some i =>
      (readRes (arch.getTileTypeBel bel).pin_wires i).bind fun wi =>
        .ok ⟨bel.location, wi⟩
    | none => .ok WireId.invalid

/-- Method `Arch::getPipName`. -/
def getPipName (arch : Arch) (pip : PipId) : Res Int :=
  if pip = PipId.invalid then .fatal
  else
    let x := pip.location.x
    let y := pip.location.y
    if pip.kind = .PIP_KIND_PIP then
      let src_name := arch.str (arch.getWireBasename (arch.getPipSrcWire pip))
      let dst_name := arch.str (arch.getWireBasename (arch.getPipDstWire pip))
      .ok (arch.id (['X'] ++ to_string x ++ ['/', 'Y'] ++ to_string y ++ ['/'] ++ src_name
        ++ ['.', '-', '>', '.'] ++ dst_name))
    else
      match arch.getTileType x y with
      | none => .fatal
      | some tt =>
        (readRes tt.ports pip.index).bind fun port =>
          let port_name := arch.str port.name_id
          let dst_name := arch.str (arch.getWireBasename (arch.getPipDstWire pip))
          .ok (arch.id (['X'] ++ to_string x ++ ['/', 'Y'] ++ to_string y ++ ['/']
            ++ port_name ++ ['/'] ++ to_string pip.subindex ++ ['.', '-', '>', '.']
            ++ dst_name))

/-- The loop `for (curr : range) pip_by_name[getPipName(curr)] = curr` of
`Arch::getPipByName`. -/
def fillPipCache (arch : Arch) : List PipId → Cache PipId → Res (Cache PipId)
  | [], c => .ok c
  | curr :: rest, c =>
    (getPipName arch curr).bind fun n => fillPipCache arch rest (c.assign n curr)

/-- Method `Arch::getPipByName`, with the cache `pip_by_name` passed explicitly. -/
def getPipByName (arch : Arch) (pip_by_name : Cache PipId) (name : Int) :
    Res (PipId × Cache PipId) :=
  match pip_by_name.find name with
  | some ret => .ok (ret, pip_by_name)
  | none =>
    (split_identifier_name (arch.str name)).bind fun r =>
      let loc : Location := ⟨r.1, r.2.1⟩
      let b := loc.x + arch.width * loc.y
      (fillPipCache arch (arch.allPipRange b (b + 1)) pip_by_name).bind fun cache =>
        match cache.find name with
        | none => .fatal
        | some ret => .ok (ret, cache)

/-- Bel caches that calls of `getBelByName` build from the empty cache. -/
inductive BelCacheReachable (arch : Arch) : Cache BelId → Prop where
  | empty : BelCacheReachable arch []
  | call (c c1 : Cache BelId) (name : Int) (ret : BelId) :
      BelCacheReachable arch c → getBelByName arch c name = .ok (ret, c1) →
      BelCacheReachable arch c1

/-- Wire caches that calls of `getWireByName` build from the empty cache. -/
inductive WireCacheReachable (arch : Arch) : Cache WireId → Prop where
  | empty : WireCacheReachable arch []
  | call (c c1 : Cache WireId) (name : Int) (ret : WireId) :
      WireCacheReachable arch c → getWireByName arch c name = .ok (ret, c1) →
      WireCacheReachable arch c1

/-- Pip caches that calls of `getPipByName` build from the empty cache. -/
inductive PipCacheReachable (arch : Arch) : Cache PipId → Prop where
  | empty : PipCacheReachable arch []
  | call (c c1 : Cache PipId) (name : Int) (ret : PipId) :
      PipCacheReachable arch c → getPipByName arch c name = .ok (ret, c1) →
      PipCacheReachable arch c1

/-! ## Concrete devices used for evaluations

A device built from tables: every tile has the same tile type; an identifier is the
position of its string in a table of names. -/

/-- Tables of a concrete device. -/
structure Tables where
  /-- Strings of the identifiers, by identifier. -/
  names : List Str
  /-- The tile type of every tile. -/
  tileType : TileTypePOD
  /-- Source and destination wire of every intra-tile pip. -/
  pipWires : List (Int × Int)
  /-- The wires attached to each port, by subindex. -/
  portWires : List (List Int)
  /-- The pins of the only bel type. -/
  belType : BelTypePOD
  /-- Width of the grid; the grid has one row. -/
  width : Nat
  /-- Runtime state of the tiles of the row, by column. -/
  tiles : List TilePOD
deriving Repr

namespace Tables

/-- An unconnected entry of a connection table. -/
def unconnected : ConnPOD := ⟨-1, -1, -1⟩

/-- Position of a string in a table of names; the length of the table when the string is
not in it. -/
def indexOfName (s : Str) : List Str → Nat
  | [] => 0
  | x :: xs => if x = s then 0 else indexOfName s xs + 1

/-- Tile lookup. -/
def getTile (t : Tables) (loc : Location) : TilePOD :=
  if loc.y = 0 then (readAt t.tiles loc.x).getD { conns := [] } else { conns := [] }

/-- Wire definition lookup. -/
def wireDef (t : Tables) (i : Int) : TileTypeWirePOD :=
  (readAt t.tileType.wires i).getD ⟨0, [], [], []⟩

/-- Destination wire of a pip: the pip's own tile holds the destination wire. -/
def getPipDstWire (t : Tables) (p : PipId) : WireId :=
  match p.kind with
  | .PIP_KIND_PIP => ⟨p.location, ((readAt t.pipWires p.index).getD (0, 0)).2⟩
  | .PIP_KIND_PORT =>
    ⟨p.location, (readAt ((readAt t.portWires p.index).getD []) p.subindex).getD 0⟩

/-- Source wire of a pip: for a port pip, the wire behind the linked port of the
neighbouring tile. -/
def getPipSrcWire (t : Tables) (p : PipId) : WireId :=
  match p.kind with
  | .PIP_KIND_PIP => ⟨p.location, ((readAt t.pipWires p.index).getD (0, 0)).1⟩
  | .PIP_KIND_PORT =>
    let conn := (readAt (t.getTile p.location).conns p.index).getD unconnected
    ⟨⟨conn.tile_x, conn.tile_y⟩,
      (readAt ((readAt t.portWires conn.port_idx).getD []) p.subindex).getD 0⟩

/-- The pips of the tile in column `x`: the intra-tile pips, then for each connected port
one pip per attached wire. -/
def tilePips (t : Tables) (x : Nat) : List PipId :=
  (List.range t.pipWires.length).map (fun i => ⟨⟨x, 0⟩, .PIP_KIND_PIP, i, -1⟩)
    ++ (List.range t.portWires.length).flatMap fun p =>
        if ((readAt (t.getTile ⟨x, 0⟩).conns p).getD unconnected).port_idx ≠ -1 then
          (List.range ((readAt t.portWires p).getD []).length).map
            fun s => ⟨⟨x, 0⟩, .PIP_KIND_PORT, p, s⟩
        else []

/-- The device described by the tables. -/
def arch (t : Tables) : Arch :=
  { getTileTypeWire := fun w => t.wireDef w.index
    getTile := t.getTile
    getTileType := fun x y =>
      if y = 0 ∧ 0 ≤ x ∧ x < (t.width : Int) then some t.tileType else none
    str := fun i => (readAt t.names i).getD []
    id := fun s => (indexOfName s t.names : Int)
    getPipSrcWire := t.getPipSrcWire
    getPipDstWire := t.getPipDstWire
    getWireBasename := fun w => (t.wireDef w.index).name_id
    getBelTypeInfo := fun _ => t.belType
    getTileTypeBel := fun b => (readAt t.tileType.bels b.index).getD ⟨0, []⟩
    width := t.width
    allPipRange := fun b e =>
      if 0 ≤ b ∧ b < (t.width : Int) ∧ e = b + 1 then t.tilePips b.toNat else [] }

end Tables

/-! ### The two-tile demo device

Tiles `(0,0)` and `(1,0)` share one tile type with wires `A`, `B`, `C`, intra-tile pips
`0: A -> B`, `1: C -> A`, `2: C -> B`, `3: A -> C`, ports `E`, `W`, `N`, `S` and bels `L`,
`M`, `M`. Port `E` of `(0,0)` is linked to port `W` of `(1,0)`; every other port is
unconnected. The bel type has the pins `I` (flags 1), `L` (2), `M` (0), `E` (3), `W` (5)
and a second pin `I` (2); with `FLAG_INPUT = 1` and `FLAG_OUTPUT = 2` these are an input,
an output, a pin without direction, an inout, an input with a further bit, and a
definition that the first `I` shadows. -/

namespace Demo

/-- Wire `A`: source of pips 0 and 3, destination of pip 1, attached to port `W`. -/
def wireA : TileTypeWirePOD :=
  { name_id := 1, pip_src_xrefs := [0, 3], pip_dst_xrefs := [1],
    port_xrefs := [⟨1, 0⟩] }

/-- Wire `B`: destination of pips 0 and 2, attached to port `E`. -/
def wireB : TileTypeWirePOD :=
  { name_id := 2, pip_src_xrefs := [], pip_dst_xrefs := [0, 2],
    port_xrefs := [⟨0, 0⟩] }

/-- Wire `C`: source of pips 1 and 2, destination of pip 3, attached to ports `N`, `E`,
`N`, `S`, `W`, `N` in this order. -/
def wireC : TileTypeWirePOD :=
  { name_id := 3, pip_src_xrefs := [1, 2], pip_dst_xrefs := [3],
    port_xrefs := [⟨2, 0⟩, ⟨0, 1⟩, ⟨2, 1⟩, ⟨3, 0⟩, ⟨1, 1⟩, ⟨2, 2⟩] }

/-- Connection table of tile `(0,0)`: port `E` leads to port `W` of `(1,0)`. -/
def tile00 : TilePOD :=
  { conns := [⟨1, 0, 1⟩, Tables.unconnected, Tables.unconnected, Tables.unconnected] }

/-- Connection table of tile `(1,0)`: port `W` leads to port `E` of `(0,0)`. -/
def tile10 : TilePOD :=
  { conns := [Tables.unconnected, ⟨0, 0, 0⟩, Tables.unconnected, Tables.unconnected] }

/-- Tables of the demo device. Identifiers 0 to 10 are the local names, 11 to 16 are bel
and wire names used in evaluations, 17 to 28 are the names of the pips of the two tiles.
The identifier of any other string is 29. -/
def tables : Tables :=
  { names := [[], ['A'], ['B'], ['C'], ['E'], ['W'], ['N'], ['S'], ['L'], ['M'], ['I'],
      "X1/Y0/M".toList, "X1/Y0/C".toList, "X1/Y0/Q".toList, "Xq/Y0/M".toList,
      "X1Y0/M".toList, "X5/Y0/M".toList, "X0/Y0/A.->.B".toList, "X1/Y0/W/1.->.C".toList,
      "X0/Y0/C.->.A".toList, "X0/Y0/C.->.B".toList, "X0/Y0/A.->.C".toList,
      "X0/Y0/E/0.->.B".toList, "X0/Y0/E/1.->.C".toList, "X1/Y0/A.->.B".toList,
      "X1/Y0/C.->.A".toList, "X1/Y0/C.->.B".toList, "X1/Y0/A.->.C".toList,
      "X1/Y0/W/0.->.A".toList]
    tileType :=
      { bels := [⟨8, [0, 1, 2, 0, 1]⟩, ⟨9, [1, 2, 0, 1, 2]⟩, ⟨9, [2, 0, 1, 2, 0]⟩]
        wires := [wireA, wireB, wireC]
        ports := [⟨4⟩, ⟨5⟩, ⟨6⟩, ⟨7⟩] }
    pipWires := [(0, 1), (2, 0), (2, 1), (0, 2)]
    portWires := [[1, 2], [0, 2], [2, 2, 2], [2]]
    belType := { pins := [⟨10, 1⟩, ⟨8, 2⟩, ⟨9, 0⟩, ⟨4, 3⟩, ⟨5, 5⟩, ⟨10, 2⟩] }
    width := 2
    tiles := [tile00, tile10] }

/-- The demo device. -/
def arch : Arch := tables.arch

end Demo

/-! ### The one-tile devices

`Scenario`: one tile `(0,0)` with wires `A`, `B` and the single intra-tile pip `A -> B`.
`Dup`: the same tile with a second pip `A -> B` beside the first. -/

namespace Scenario

/-- Tables of the scenario device. -/
def tables : Tables :=
  { names := [[], ['A'], ['B'], "X0/Y0/A.->.B".toList]
    tileType :=
      { bels := []
        wires := [⟨1, [0], [], []⟩, ⟨2, [], [0], []⟩]
        ports := [] }
    pipWires := [(0, 1)]
    portWires := []
    belType := { pins := [] }
    width := 1
    tiles := [{ conns := [] }] }

/-- The scenario device. -/
def arch : Arch := tables.arch

end Scenario

namespace Dup

/-- Tables of the device with two pips `A -> B`. -/
def tables : Tables :=
  { names := [[], ['A'], ['B'], "X0/Y0/A.->.B".toList]
    tileType :=
      { bels := []
        wires := [⟨1, [0, 1], [], []⟩, ⟨2, [], [0, 1], []⟩]
        ports := [] }
    pipWires := [(0, 1), (0, 1)]
    portWires := []
    belType := { pins := [] }
    width := 1
    tiles := [{ conns := [] }] }

/-- The device with two pips `A -> B`. -/
def arch : Arch := tables.arch

end Dup

/-! ## Bel pin direction -/

/-- Direction of a port (`PortType` of `nextpnr.h`). -/
inductive PortType where
  | PORT_IN
  | PORT_OUT
  | PORT_INOUT
deriving DecidableEq, Repr

/-- The loop of `Arch::getBelPinType` over the pin definitions of the bel type. The
constants `BelTypePinPOD::FLAG_INPUT` and `BelTypePinPOD::FLAG_OUTPUT` are declared outside
the sources and are parameters; `ndebug` tells whether the build defines `NDEBUG`, which
turns `assert(is_out)` into nothing. Falling out of the loop returns `PORT_INOUT`. -/
def pinTypeScan (FLAG_INPUT FLAG_OUTPUT : Int) (ndebug : Bool) (pin : Int) :
    List BelTypePinPOD → Res PortType
  | [] => .ok .PORT_INOUT
  | p :: rest =>
    if p.name_id = pin then
      let is_in : Bool := decide (Int.land p.flags FLAG_INPUT ≠ 0)
      let is_out : Bool := decide (Int.land p.flags FLAG_OUTPUT ≠ 0)
      if is_in && is_out then .ok .PORT_INOUT
      else if is_in then .ok .PORT_IN
      else if is_out || ndebug then .ok .PORT_OUT
      else .fatal
    else pinTypeScan FLAG_INPUT FLAG_OUTPUT ndebug pin rest

/-- Method `Arch::getBelPinType`. -/
def getBelPinType (arch : Arch) (FLAG_INPUT FLAG_OUTPUT : Int) (ndebug : Bool) (bel : BelId)
    (pin : Int) : Res PortType :=
  if bel = BelId.invalid then .fatal
  else pinTypeScan FLAG_INPUT FLAG_OUTPUT ndebug pin (arch.getBelTypeInfo bel).pins

/-! ## Reachable iterator states and counting advances -/

/-- Position of a stage in the order PIPS, PORTS, END. -/
def Stage.rank : Stage → Nat
  | .STAGE_PIPS => 0
  | .STAGE_PORTS => 1
  | .STAGE_END => 2

/-- States that one or more advances reach from the start state of a traversal. -/
inductive Reached (arch : Arch) (w : WireId) (mode : Mode) : PipIterator → Prop where
  | first (fuel : Nat) (it : PipIterator) :
      (PipIterator.start w mode).operatorInc arch fuel = .ok it → Reached arch w mode it
  | next (fuel : Nat) (it it1 : PipIterator) :
      Reached arch w mode it → it.operatorInc arch fuel = .ok it1 → Reached arch w mode it1

/-- Advance until stage END and count the advances; `n` bounds their number, `fuel` is the
budget of each advance. -/
def advanceToEnd (arch : Arch) (fuel : Nat) : Nat → PipIterator → Res Nat
  | 0, _ => .nofuel
  | n + 1, it =>
    (it.operatorInc arch fuel).bind fun it1 =>
      if it1.stage = .STAGE_END then .ok 1
      else (advanceToEnd arch fuel n it1).bind fun k => .ok (k + 1)

/-! ## The growable arena (`gui/sparsevector.h`)

The memory behind `start_` is a map from slot index to element: `start_[i]` reads slot `i`
and `start_[i] = x` writes it. `size_t` and `unsigned long long` are 64-bit words. The
element size `sizeof(T)` is a parameter of the operations. -/

/-- Number of values of a 64-bit word. -/
def WORD : Nat := 2 ^ 64

/-- Class `SparseVector<T>`. -/
structure SparseVector (τ : Type) where
  start_ : Nat → τ
  length_ : Nat
  cursor_ : Nat

/-- Class `SparseVectorIterator<T>`; the vector it points to is passed to the operations
that read it. -/
structure SparseVectorIterator where
  cursor_ : Nat
deriving DecidableEq, Repr

namespace SparseVector

/-- Constructor `SparseVector(initial_allocation)`: `mapped` tells whether `mmap` returned
a mapping rather than `MAP_FAILED`, `zero` is the content of a fresh anonymous mapping. -/
def construct {τ : Type} (zero : τ) (mapped : Bool) (initial_allocation : Nat) :
    Res (SparseVector τ) :=
  if mapped then .ok { start_ := fun _ => zero, length_ := initial_allocation, cursor_ := 0 }
  else .fatal

/-- Method `push_back`. -/
def push_back {τ : Type} (sizeofT : Nat) (v : SparseVector τ) (elem : τ) :
    Res (SparseVector τ) :=
  if (v.cursor_ * sizeofT) % WORD < v.length_ then
    .ok { v with start_ := fun i => if i = v.cursor_ then elem else v.start_ i,
                 cursor_ := (v.cursor_ + 1) % WORD }
  else .fatal

/-- Method `get`. -/
def get {τ : Type} (v : SparseVector τ) (index : Nat) : τ :=
  v.start_ index

/-- Method `begin`. -/
def begin {τ : Type} (_v : SparseVector τ) : SparseVectorIterator :=
  ⟨0⟩

/-- Method `end`. -/
def end_ {τ : Type} (v : SparseVector τ) : SparseVectorIterator :=
  ⟨v.cursor_⟩

/-- A run of `push_back` calls, one per element of the list, in order; it stops at the
first call that fails. -/
def pushAll {τ : Type} (sizeofT : Nat) : SparseVector τ → List τ → Res (SparseVector τ)
  | v, [] => .ok v
  | v, x :: xs => (push_back sizeofT v x).bind fun v1 => pushAll sizeofT v1 xs

end SparseVector

namespace SparseVectorIterator

/-- Method `operator++`. -/
def operatorInc (it : SparseVectorIterator) : SparseVectorIterator :=
  ⟨(it.cursor_ + 1) % WORD⟩

/-- Method `operator!=`. -/
def ne (it other : SparseVectorIterator) : Bool :=
  decide (it.cursor_ ≠ other.cursor_)

/-- Method `operator*`. -/
def operatorDeref {τ : Type} (v : SparseVector τ) (it : SparseVectorIterator) : τ :=
  v.get it.cursor_

/-- The iterator after `k` steps of `operator++`. -/
def steps : Nat → SparseVectorIterator → SparseVectorIterator
  | 0, it => it
  | k + 1, it => steps k it.operatorInc

end SparseVectorIterator

/-- The loop `for (it = first; it != v.end(); ++it)` collecting `*it`; `n` bounds the number
of iterations. -/
def iterate {τ : Type} (v : SparseVector τ) : Nat → SparseVectorIterator → Res (List τ)
  | 0, _ => .nofuel
  | n + 1, it =>
    if it.ne v.end_ then
      (iterate v n it.operatorInc).bind fun rest => .ok (it.operatorDeref v :: rest)
    else .ok []

/-! ## Basic facts -/

@[simp] theorem Res.ok_bind {α β : Type} (a : α) (f : α → Res β) :
    (Res.ok a).bind f = f a := rfl

theorem Res.bind_assoc {α β γ : Type} (r : Res α) (f : α → Res β) (g : β → Res γ) :
    (r.bind f).bind g = r.bind fun a => (f a).bind g := by
  cases r <;> rfl

theorem readAt_length_append {α : Type} (pre suf : List α) (x : α) :
    readAt (pre ++ x :: suf) (pre.length : Int) = some x := by
  have h : (pre ++ x :: suf)[pre.length]? = some x := by
    rw [List.getElem?_append_right (le_refl _)]
    simp
  have hneg : ¬ ((pre.length : Int) < 0) := by omega
  simp only [readAt, hneg, if_false, Int.toNat_ofNat]
  exact h

theorem readAt_inRange {α : Type} (a : List α) (i : Int) (h0 : 0 ≤ i)
    (h1 : i < (a.length : Int)) : ∃ v, readAt a i = some v := by
  have hlt : i.toNat < a.length := by omega
  refine ⟨a[i.toNat], ?_⟩
  have hneg : ¬ i < 0 := by omega
  simp [readAt, hneg, List.getElem?_eq_getElem hlt]

/-! ## The iterator, step by step -/

theorem inc_ports (arch : Arch) (f : Nat) (w : WireId) (mode : Mode) (c : Int) :
    (PipIterator.mk w mode .STAGE_PORTS c).operatorInc arch f
      = (skipPorts (arch.getTileTypeWire w) (arch.getTile w.location) f (c + 1)).bind
          fun r => .ok (PipIterator.mk w mode r.1 r.2) := by
  simp [PipIterator.operatorInc]

theorem inc_pips_last (arch : Arch) (f : Nat) (w : WireId) (mode : Mode) (c : Int)
    (h : c + 1 = ((pipXrefs (arch.getTileTypeWire w) mode).length : Int)) :
    (PipIterator.mk w mode .STAGE_PIPS c).operatorInc arch f
      = (skipPorts (arch.getTileTypeWire w) (arch.getTile w.location) f 0).bind
          fun r => .ok (PipIterator.mk w mode r.1 r.2) := by
  unfold pipXrefs at h
  cases mode <;> simp_all [PipIterator.operatorInc]

theorem inc_pips_more (arch : Arch) (f : Nat) (w : WireId) (mode : Mode) (c : Int)
    (h : c + 1 ≠ ((pipXrefs (arch.getTileTypeWire w) mode).length : Int)) :
    (PipIterator.mk w mode .STAGE_PIPS c).operatorInc arch f
      = .ok (PipIterator.mk w mode .STAGE_PIPS (c + 1)) := by
  unfold pipXrefs at h
  cases mode <;> simp_all [PipIterator.operatorInc]

theorem deref_pips (arch : Arch) (w : WireId) (mode : Mode) (pre suf : List Int) (i : Int)
    (h : pipXrefs (arch.getTileTypeWire w) mode = pre ++ i :: suf) :
    (PipIterator.mk w mode .STAGE_PIPS pre.length).operatorDeref arch
      = .ok ⟨w.location, .PIP_KIND_PIP, i, -1⟩ := by
  unfold pipXrefs at h
  cases mode <;>
    simp_all [PipIterator.operatorDeref, readRes, readAt_length_append, PipId.invalid]

theorem deref_ports (arch : Arch) (w : WireId) (mode : Mode) (stage : Stage)
    (pre suf : List PortXrefPOD) (x : PortXrefPOD) (conn : ConnPOD)
    (hstage : stage ≠ .STAGE_PIPS)
    (h : (arch.getTileTypeWire w).port_xrefs = pre ++ x :: suf)
    (hc : readAt (arch.getTile w.location).conns x.port_idx = some conn) :
    (PipIterator.mk w mode stage pre.length).operatorDeref arch
      = .ok (portPip w mode x conn) := by
  cases mode <;>
    simp [PipIterator.operatorDeref, readRes, readAt_length_append, PipId.invalid, portPip,
      hstage, h, hc]

/-- The ports phase: from the port-skipping loop started at cursor `pre.length`, the
remaining port cross-references `suf` yield exactly their connected entries. -/
theorem ports_phase (arch : Arch) (w : WireId) (mode : Mode) (f : Nat) :
    ∀ (suf pre : List PortXrefPOD) (g n : Nat),
      (arch.getTileTypeWire w).port_xrefs = pre ++ suf →
      (∀ x ∈ suf, 0 ≤ x.port_idx ∧
        x.port_idx < ((arch.getTile w.location).conns.length : Int)) →
      suf.length + 1 ≤ f → suf.length + 1 ≤ g → suf.length + 1 ≤ n →
      ((skipPorts (arch.getTileTypeWire w) (arch.getTile w.location) g pre.length).bind
          fun r => collect arch f n (PipIterator.mk w mode r.1 r.2))
        = .ok (portPart (arch.getTile w.location) w mode suf) := by
  intro suf
  induction suf with
  | nil =>
    intro pre g n hx _ _ hg hn
    obtain ⟨g, rfl⟩ : ∃ k, g = k + 1 := ⟨g - 1, by omega⟩
    obtain ⟨n, rfl⟩ : ∃ k, n = k + 1 := ⟨n - 1, by omega⟩
    simp [skipPorts, hx, collect, portPart]
  | cons x s ih =>
    intro pre g n hx hok hf hg hn
    obtain ⟨g, rfl⟩ : ∃ k, g = k + 1 := ⟨g - 1, by simp at hg; omega⟩
    obtain ⟨n, rfl⟩ : ∃ k, n = k + 1 := ⟨n - 1, by simp at hn; omega⟩
    simp only [List.length_cons] at hf hg hn
    have hx2 : (arch.getTileTypeWire w).port_xrefs = (pre ++ [x]) ++ s := by simp [hx]
    have hlen : ((pre ++ [x]).length : Int) = (pre.length : Int) + 1 := by simp
    have hne : ¬ ((pre.length : Int) = ((arch.getTileTypeWire w).port_xrefs.length : Int)) := by
      rw [hx]; simp; omega
    obtain ⟨conn, hconn⟩ := readAt_inRange _ _ (hok x (by simp)).1 (hok x (by simp)).2
    have hread : readAt (arch.getTileTypeWire w).port_xrefs (pre.length : Int) = some x := by
      rw [hx]; exact readAt_length_append pre s x
    have ih2 := fun g n => ih (pre ++ [x]) g n hx2 (fun y hy => hok y (by simp [hy]))
      (by omega)
    rw [hlen] at ih2
    by_cases hcon : conn.port_idx = -1
    · have hpp : portPart (arch.getTile w.location) w mode (x :: s)
          = portPart (arch.getTile w.location) w mode s := by
        simp [portPart, connectedConn, hconn, hcon]
      rw [hpp, ← ih2 g (n + 1) (by omega) (by omega)]
      simp [skipPorts, hne, hread, hconn, hcon]
    · have hpp : portPart (arch.getTile w.location) w mode (x :: s)
          = portPip w mode x conn :: portPart (arch.getTile w.location) w mode s := by
        simp [portPart, connectedConn, hconn, hcon]
      have hd := deref_ports arch w mode .STAGE_PORTS pre s x conn (by decide) hx hconn
      rw [hpp]
      simp only [skipPorts, hne, hread, hconn, hcon, if_false, Res.ok_bind, collect,
        ne_eq, not_false_eq_true, if_true, reduceCtorEq, hd, inc_ports, Res.bind_assoc]
      refine (Res.bind_assoc _
        (fun r : Stage × Int => collect arch f n (PipIterator.mk w mode r.1 r.2))
        (fun ps => .ok (portPip w mode x conn :: ps))).symm.trans ?_
      rw [ih2 f n (by omega) (by omega)]
      rfl

/-- The pips phase: advancing from the entry before `suf` and collecting yields one
PIP-kind pip per entry of `suf`, then the ports phase. -/
theorem pips_phase (arch : Arch) (w : WireId) (mode : Mode) (f : Nat)
    (hok : WireOk arch w) (hf : (arch.getTileTypeWire w).port_xrefs.length + 1 ≤ f) :
    ∀ (suf pre : List Int) (n : Nat),
      pipXrefs (arch.getTileTypeWire w) mode = pre ++ suf →
      suf.length + (arch.getTileTypeWire w).port_xrefs.length + 1 ≤ n →
      ((PipIterator.mk w mode .STAGE_PIPS ((pre.length : Int) - 1)).operatorInc arch f).bind
          (collect arch f n)
        = .ok (pipPart w suf
            ++ portPart (arch.getTile w.location) w mode (arch.getTileTypeWire w).port_xrefs) := by
  intro suf
  induction suf with
  | nil =>
    intro pre n hx hn
    have hlast : (pre.length : Int) - 1 + 1
        = ((pipXrefs (arch.getTileTypeWire w) mode).length : Int) := by
      rw [hx]; simp
    rw [inc_pips_last arch f w mode _ hlast, Res.bind_assoc]
    have hp := ports_phase arch w mode f (arch.getTileTypeWire w).port_xrefs [] f n rfl hok hf hf
      (by simp at hn; omega)
    simpa [pipPart] using hp
  | cons i s ih =>
    intro pre n hx hn
    obtain ⟨n, rfl⟩ : ∃ k, n = k + 1 := ⟨n - 1, by simp at hn; omega⟩
    have hmore : (pre.length : Int) - 1 + 1
        ≠ ((pipXrefs (arch.getTileTypeWire w) mode).length : Int) := by
      rw [hx]; simp; omega
    have hcur : (pre.length : Int) - 1 + 1 = (pre.length : Int) := by omega
    have hd := deref_pips arch w mode pre s i hx
    have ih2 := ih (pre ++ [i]) n (by simp [hx]) (by simp at hn ⊢; omega)
    have hlen : ((pre ++ [i]).length : Int) - 1 = (pre.length : Int) := by simp
    rw [hlen] at ih2
    rw [inc_pips_more arch f w mode _ hmore, hcur]
    simp only [Res.ok_bind, collect, reduceCtorEq, if_false, hd]
    refine (Res.bind_assoc _ (collect arch f n)
      (fun ps => .ok (PipId.mk w.location .PIP_KIND_PIP i (-1) :: ps))).symm.trans ?_
    rw [ih2]
    rfl

/-- What a traversal yields: one PIP-kind pip per entry of the intra-tile cross-reference
list of the direction, then one PORT-kind pip per connected port cross-reference. -/
theorem traverse_eq (arch : Arch) (fuel : Nat) (w : WireId) (mode : Mode)
    (hok : WireOk arch w)
    (hfuel : (pipXrefs (arch.getTileTypeWire w) mode).length
      + (arch.getTileTypeWire w).port_xrefs.length + 1 ≤ fuel) :
    traverse arch fuel w mode
      = .ok (pipPart w (pipXrefs (arch.getTileTypeWire w) mode)
          ++ portPart (arch.getTile w.location) w mode (arch.getTileTypeWire w).port_xrefs) := by
  have h := pips_phase arch w mode fuel hok (by omega)
    (pipXrefs (arch.getTileTypeWire w) mode) [] fuel rfl hfuel
  simpa [traverse, PipIterator.start] using h

/-! ## Shape of the expected lists -/

theorem pipPart_kind (w : WireId) (xs : List Int) :
    ∀ p ∈ pipPart w xs, p.kind = .PIP_KIND_PIP := by
  intro p hp
  simp only [pipPart, List.mem_map] at hp
  obtain ⟨i, _, rfl⟩ := hp
  rfl

theorem portPart_kind (tile : TilePOD) (w : WireId) (mode : Mode) (xs : List PortXrefPOD) :
    ∀ p ∈ portPart tile w mode xs, p.kind = .PIP_KIND_PORT := by
  intro p hp
  simp only [portPart, List.mem_filterMap, Option.map_eq_some'] at hp
  obtain ⟨x, _, conn, _, rfl⟩ := hp
  cases mode <;> rfl

theorem split_at {α : Type} (xs : List α) (k : Nat) (x : α) (h : xs[k]? = some x) :
    ∃ pre suf, xs = pre ++ x :: suf ∧ pre.length = k := by
  induction xs generalizing k with
  | nil => simp at h
  | cons y ys ih =>
    cases k with
    | zero =>
      simp at h
      exact ⟨[], ys, by simp [h], rfl⟩
    | succ k =>
      simp at h
      obtain ⟨pre, suf, hs, hl⟩ := ih k h
      exact ⟨y :: pre, suf, by simp [hs], by simp [hl]⟩

/-- A connected port cross-reference at position `k`: what dereferencing at cursor `k`
gives, and that the traversal yields it. -/
theorem port_entry_yield (arch : Arch) (fuel : Nat) (w : WireId) (mode : Mode) (k : Nat)
    (x : PortXrefPOD) (conn : ConnPOD) (hok : WireOk arch w)
    (hfuel : (pipXrefs (arch.getTileTypeWire w) mode).length
      + (arch.getTileTypeWire w).port_xrefs.length + 1 ≤ fuel)
    (hx : (arch.getTileTypeWire w).port_xrefs[k]? = some x)
    (hconn : readAt (arch.getTile w.location).conns x.port_idx = some conn)
    (hcon : conn.port_idx ≠ -1) :
    (PipIterator.mk w mode .STAGE_PORTS k).operatorDeref arch = .ok (portPip w mode x conn)
      ∧ ∃ l, traverse arch fuel w mode = .ok l ∧ portPip w mode x conn ∈ l := by
  obtain ⟨pre, suf, hs, hl⟩ := split_at _ k x hx
  refine ⟨?_, _, traverse_eq arch fuel w mode hok hfuel, ?_⟩
  · rw [← hl]
    exact deref_ports arch w mode .STAGE_PORTS pre suf x conn (by decide) hs hconn
  · apply List.mem_append_right
    simp only [portPart, List.mem_filterMap, Option.map_eq_some']
    refine ⟨x, ?_, conn, ?_, rfl⟩
    · rw [hs]; simp
    · simp [connectedConn, hconn, hcon]

/-! ## Traversal claims -/

/-- C1: for a wire whose port cross-references lie inside the connection table of its
tile, the traversal in either direction (start at stage PIPS with cursor -1, advance once,
then dereference and advance until stage END) returns a finite list that begins with one
PIP-kind pip per entry of the intra-tile cross-reference list of the direction
(`pip_dst_xrefs` for UPHILL, `pip_src_xrefs` for DOWNHILL), in list order, each at the
wire's location with the entry as index; everything after that prefix is PORT-kind. -/
theorem C1_traversal_pips_then_ports (arch : Arch) (fuel : Nat) (w : WireId) (mode : Mode)
    (hok : WireOk arch w)
    (hfuel : (pipXrefs (arch.getTileTypeWire w) mode).length
      + (arch.getTileTypeWire w).port_xrefs.length + 1 ≤ fuel) :
    ∃ pips ports : List PipId,
      traverse arch fuel w mode = .ok (pips ++ ports)
      ∧ pips.map (fun p => (p.kind, p.location, p.index))
          = (if mode = .MODE_UPHILL then (arch.getTileTypeWire w).pip_dst_xrefs
              else (arch.getTileTypeWire w).pip_src_xrefs).map
              (fun i => (PipKind.PIP_KIND_PIP, w.location, i))
      ∧ ∀ p ∈ ports, p.kind = .PIP_KIND_PORT := by
  refine ⟨_, _, traverse_eq arch fuel w mode hok hfuel, ?_, portPart_kind _ _ _ _⟩
  simp [pipPart, pipXrefs]

/-- C1 at wire `C` of tile `(0,0)` of the demo device, DOWNHILL. -/
theorem C1_traversal_pips_then_ports_witness :
    WireOk Demo.arch ⟨⟨0, 0⟩, 2⟩ ∧
    ∃ pips ports : List PipId,
      traverse Demo.arch 9 ⟨⟨0, 0⟩, 2⟩ .MODE_DOWNHILL = .ok (pips ++ ports)
      ∧ pips.map (fun p => (p.kind, p.location, p.index))
          = [(PipKind.PIP_KIND_PIP, (⟨0, 0⟩ : Location), (1 : Int)),
             (PipKind.PIP_KIND_PIP, ⟨0, 0⟩, 2)]
      ∧ ∀ p ∈ ports, p.kind = .PIP_KIND_PORT :=
  ⟨by decide,
   C1_traversal_pips_then_ports Demo.arch 9 ⟨⟨0, 0⟩, 2⟩ .MODE_DOWNHILL (by decide) (by decide)⟩

/-- C2: in either direction the PORT-kind pips of a traversal are, in order, exactly the
images of those port cross-references of the wire whose port is connected in the
connection table of the wire's own tile (`conns[xref.port_idx].port_idx != -1`): an
unconnected entry yields nothing, a connected entry yields exactly one pip. -/
theorem C2_port_pips_are_connected_entries (arch : Arch) (fuel : Nat) (w : WireId)
    (mode : Mode) (hok : WireOk arch w)
    (hfuel : (pipXrefs (arch.getTileTypeWire w) mode).length
      + (arch.getTileTypeWire w).port_xrefs.length + 1 ≤ fuel) :
    ∃ l : List PipId,
      traverse arch fuel w mode = .ok l
      ∧ l.filter (fun p => p.kind = .PIP_KIND_PORT)
          = (arch.getTileTypeWire w).port_xrefs.filterMap fun x =>
              match readAt (arch.getTile w.location).conns x.port_idx with
              | some conn => if conn.port_idx ≠ -1 then some (portPip w mode x conn) else none
              | none => none := by
  refine ⟨_, traverse_eq arch fuel w mode hok hfuel, ?_⟩
  have h1 : (pipPart w (pipXrefs (arch.getTileTypeWire w) mode)).filter
      (fun p => p.kind = .PIP_KIND_PORT) = [] := by
    rw [List.filter_eq_nil_iff]
    intro p hp
    simp [pipPart_kind w _ p hp]
  have h2 : (portPart (arch.getTile w.location) w mode
      (arch.getTileTypeWire w).port_xrefs).filter (fun p => p.kind = .PIP_KIND_PORT)
      = portPart (arch.getTile w.location) w mode (arch.getTileTypeWire w).port_xrefs := by
    rw [List.filter_eq_self]
    intro p hp
    simp [portPart_kind _ w mode _ p hp]
  rw [List.filter_append, h1, h2, List.nil_append]
  unfold portPart
  congr 1
  funext x
  unfold connectedConn
  cases readAt (arch.getTile w.location).conns x.port_idx with
  | none => rfl
  | some conn => by_cases hc : conn.port_idx = -1 <;> simp [hc]

/-- C2 at wire `C` of tile `(0,0)` of the demo device, UPHILL: of its six port
cross-references (the first, the last and two adjacent middle ones unconnected) only the
connected one yields a pip. -/
theorem C2_port_pips_are_connected_entries_witness :
    WireOk Demo.arch ⟨⟨0, 0⟩, 2⟩ ∧
    ∃ l : List PipId,
      traverse Demo.arch 9 ⟨⟨0, 0⟩, 2⟩ .MODE_UPHILL = .ok l
      ∧ l.filter (fun p => p.kind = .PIP_KIND_PORT)
          = Demo.wireC.port_xrefs.filterMap fun x =>
              match readAt Demo.tile00.conns x.port_idx with
              | some conn =>
                if conn.port_idx ≠ -1 then
                  some (portPip ⟨⟨0, 0⟩, 2⟩ .MODE_UPHILL x conn) else none
              | none => none :=
  ⟨by decide,
   C2_port_pips_are_connected_entries Demo.arch 9 ⟨⟨0, 0⟩, 2⟩ .MODE_UPHILL
     (by decide) (by decide)⟩

/-- C3 (amended): for a connected port cross-reference `(port_idx, wire_idx)` at position
`k` of a wire, with connection-table entry `conns[port_idx] = (tile_x, tile_y, nport)`, the
pip that DOWNHILL traversal yields for it is PORT-kind, located at the neighbouring tile
`(tile_x, tile_y)`, with index `nport` and subindex `wire_idx`. -/
theorem C3_downhill_port_pip_at_neighbour (arch : Arch) (fuel : Nat) (w : WireId) (k : Nat)
    (x : PortXrefPOD) (conn : ConnPOD) (hok : WireOk arch w)
    (hfuel : (arch.getTileTypeWire w).pip_src_xrefs.length
      + (arch.getTileTypeWire w).port_xrefs.length + 1 ≤ fuel)
    (hx : (arch.getTileTypeWire w).port_xrefs[k]? = some x)
    (hconn : readAt (arch.getTile w.location).conns x.port_idx = some conn)
    (hcon : conn.port_idx ≠ -1) :
    (PipIterator.mk w .MODE_DOWNHILL .STAGE_PORTS k).operatorDeref arch
        = .ok ⟨⟨conn.tile_x, conn.tile_y⟩, .PIP_KIND_PORT, conn.port_idx, x.wire_idx⟩
      ∧ ∃ l, traverse arch fuel w .MODE_DOWNHILL = .ok l
          ∧ (⟨⟨conn.tile_x, conn.tile_y⟩, .PIP_KIND_PORT, conn.port_idx, x.wire_idx⟩ : PipId)
              ∈ l :=
  port_entry_yield arch fuel w .MODE_DOWNHILL k x conn hok hfuel hx hconn hcon

/-- C3 (amended) at wire `B` of tile `(0,0)` of the demo device: its port `E` leads to
port `W` (index 1) of tile `(1,0)`. -/
theorem C3_downhill_port_pip_at_neighbour_witness :
    WireOk Demo.arch ⟨⟨0, 0⟩, 1⟩ ∧
    ((PipIterator.mk ⟨⟨0, 0⟩, 1⟩ .MODE_DOWNHILL .STAGE_PORTS 0).operatorDeref Demo.arch
        = .ok ⟨⟨1, 0⟩, .PIP_KIND_PORT, 1, 0⟩
      ∧ ∃ l, traverse Demo.arch 5 ⟨⟨0, 0⟩, 1⟩ .MODE_DOWNHILL = .ok l
          ∧ (⟨⟨1, 0⟩, .PIP_KIND_PORT, 1, 0⟩ : PipId) ∈ l) :=
  ⟨by decide,
   C3_downhill_port_pip_at_neighbour Demo.arch 5 ⟨⟨0, 0⟩, 1⟩ 0 ⟨0, 0⟩ ⟨1, 0, 1⟩
     (by decide) (by decide) (by decide) (by decide) (by decide)⟩

/-- C3 as stated fails: wire `B` of tile `(0,0)` has the connected port cross-reference
`(0, 0)` with `conns[0] = (1, 0, 1)`; DOWNHILL traversal yields for it the pip at tile
`(1,0)` with index 1, not a pip at the wire's own tile `(0,0)` with index 0. -/
theorem C3_counterexample :
    (Demo.arch.getTileTypeWire ⟨⟨0, 0⟩, 1⟩).port_xrefs = [⟨0, 0⟩]
    ∧ readAt (Demo.arch.getTile ⟨0, 0⟩).conns 0 = some ⟨1, 0, 1⟩
    ∧ traverse Demo.arch 5 ⟨⟨0, 0⟩, 1⟩ .MODE_DOWNHILL = .ok [⟨⟨1, 0⟩, .PIP_KIND_PORT, 1, 0⟩]
    ∧ (PipIterator.mk ⟨⟨0, 0⟩, 1⟩ .MODE_DOWNHILL .STAGE_PORTS 0).operatorDeref Demo.arch
        ≠ .ok ⟨⟨0, 0⟩, .PIP_KIND_PORT, 0, 0⟩ := by
  decide

/-- C4 (amended): for a connected port cross-reference `(port_idx, wire_idx)` at position
`k` of a wire, the pip that UPHILL traversal yields for it is PORT-kind, located at the
wire's own tile, with index the local port index `port_idx` and subindex `wire_idx`. -/
theorem C4_uphill_port_pip_at_own_tile (arch : Arch) (fuel : Nat) (w : WireId) (k : Nat)
    (x : PortXrefPOD) (conn : ConnPOD) (hok : WireOk arch w)
    (hfuel : (arch.getTileTypeWire w).pip_dst_xrefs.length
      + (arch.getTileTypeWire w).port_xrefs.length + 1 ≤ fuel)
    (hx : (arch.getTileTypeWire w).port_xrefs[k]? = some x)
    (hconn : readAt (arch.getTile w.location).conns x.port_idx = some conn)
    (hcon : conn.port_idx ≠ -1) :
    (PipIterator.mk w .MODE_UPHILL .STAGE_PORTS k).operatorDeref arch
        = .ok ⟨w.location, .PIP_KIND_PORT, x.port_idx, x.wire_idx⟩
      ∧ ∃ l, traverse arch fuel w .MODE_UPHILL = .ok l
          ∧ (⟨w.location, .PIP_KIND_PORT, x.port_idx, x.wire_idx⟩ : PipId) ∈ l :=
  port_entry_yield arch fuel w .MODE_UPHILL k x conn hok hfuel hx hconn hcon

/-- C4 (amended) at wire `A` of tile `(1,0)` of the demo device: its port `W` (index 1)
leads to tile `(0,0)`. -/
theorem C4_uphill_port_pip_at_own_tile_witness :
    WireOk Demo.arch ⟨⟨1, 0⟩, 0⟩ ∧
    ((PipIterator.mk ⟨⟨1, 0⟩, 0⟩ .MODE_UPHILL .STAGE_PORTS 0).operatorDeref Demo.arch
        = .ok ⟨⟨1, 0⟩, .PIP_KIND_PORT, 1, 0⟩
      ∧ ∃ l, traverse Demo.arch 5 ⟨⟨1, 0⟩, 0⟩ .MODE_UPHILL = .ok l
          ∧ (⟨⟨1, 0⟩, .PIP_KIND_PORT, 1, 0⟩ : PipId) ∈ l) :=
  ⟨by decide,
   C4_uphill_port_pip_at_own_tile Demo.arch 5 ⟨⟨1, 0⟩, 0⟩ 0 ⟨1, 0⟩ ⟨0, 0, 0⟩
     (by decide) (by decide) (by decide) (by decide) (by decide)⟩

/-- C4 as stated fails: wire `A` of tile `(1,0)` has the connected port cross-reference
`(1, 0)` with `conns[1] = (0, 0, 0)`; UPHILL traversal yields for it the pip at the wire's
own tile `(1,0)` with index 1, not a pip at the neighbouring tile `(0,0)` with index 0. -/
theorem C4_counterexample :
    (Demo.arch.getTileTypeWire ⟨⟨1, 0⟩, 0⟩).port_xrefs = [⟨1, 0⟩]
    ∧ readAt (Demo.arch.getTile ⟨1, 0⟩).conns 1 = some ⟨0, 0, 0⟩
    ∧ traverse Demo.arch 5 ⟨⟨1, 0⟩, 0⟩ .MODE_UPHILL
        = .ok [⟨⟨1, 0⟩, .PIP_KIND_PIP, 1, -1⟩, ⟨⟨1, 0⟩, .PIP_KIND_PORT, 1, 0⟩]
    ∧ (PipIterator.mk ⟨⟨1, 0⟩, 0⟩ .MODE_UPHILL .STAGE_PORTS 0).operatorDeref Demo.arch
        ≠ .ok ⟨⟨0, 0⟩, .PIP_KIND_PORT, 0, 0⟩ := by
  decide

/-- C5: UPHILL/DOWNHILL duality. Let tiles A and B be linked symmetrically
(`A.conns[p] = (B, q)` and `B.conns[q] = (A, p)`), let wire `a` at A have the port
cross-reference `(p, s)` and wire `b` at B the port cross-reference `(q, s)`. Then the pip
that DOWNHILL traversal of `a` yields for its entry and the pip that UPHILL traversal of
`b` yields for its entry are the same PipId, of PORT kind with subindex `s`. -/
theorem C5_uphill_downhill_duality (arch : Arch) (fuel : Nat) (a b : WireId) (ka kb : Nat)
    (p q s : Int) (hoka : WireOk arch a) (hokb : WireOk arch b)
    (hfa : (arch.getTileTypeWire a).pip_src_xrefs.length
      + (arch.getTileTypeWire a).port_xrefs.length + 1 ≤ fuel)
    (hfb : (arch.getTileTypeWire b).pip_dst_xrefs.length
      + (arch.getTileTypeWire b).port_xrefs.length + 1 ≤ fuel)
    (hA : readAt (arch.getTile a.location).conns p = some ⟨b.location.x, b.location.y, q⟩)
    (hB : readAt (arch.getTile b.location).conns q = some ⟨a.location.x, a.location.y, p⟩)
    (hxa : (arch.getTileTypeWire a).port_xrefs[ka]? = some ⟨p, s⟩)
    (hxb : (arch.getTileTypeWire b).port_xrefs[kb]? = some ⟨q, s⟩) :
    ∃ pip : PipId,
      (PipIterator.mk a .MODE_DOWNHILL .STAGE_PORTS ka).operatorDeref arch = .ok pip
      ∧ (PipIterator.mk b .MODE_UPHILL .STAGE_PORTS kb).operatorDeref arch = .ok pip
      ∧ pip.kind = .PIP_KIND_PORT ∧ pip.subindex = s
      ∧ (∃ la, traverse arch fuel a .MODE_DOWNHILL = .ok la ∧ pip ∈ la)
      ∧ (∃ lb, traverse arch fuel b .MODE_UPHILL = .ok lb ∧ pip ∈ lb) := by
  have hp : p ≠ -1 := by
    intro h; rw [h] at hA; simp [readAt] at hA
  have hq : q ≠ -1 := by
    intro h; rw [h] at hB; simp [readAt] at hB
  have ha := port_entry_yield arch fuel a .MODE_DOWNHILL ka ⟨p, s⟩ _ hoka hfa hxa hA hq
  have hb := port_entry_yield arch fuel b .MODE_UPHILL kb ⟨q, s⟩ _ hokb hfb hxb hB hp
  refine ⟨⟨b.location, .PIP_KIND_PORT, q, s⟩, ha.1, hb.1, rfl, rfl, ha.2, hb.2⟩

/-- C5 on the demo device: wire `B` of tile `(0,0)` (port `E`, index 0) and wire `A` of
tile `(1,0)` (port `W`, index 1), subindex 0. -/
theorem C5_uphill_downhill_duality_witness :
    WireOk Demo.arch ⟨⟨0, 0⟩, 1⟩ ∧ WireOk Demo.arch ⟨⟨1, 0⟩, 0⟩ ∧
    ∃ pip : PipId,
      (PipIterator.mk ⟨⟨0, 0⟩, 1⟩ .MODE_DOWNHILL .STAGE_PORTS 0).operatorDeref Demo.arch
        = .ok pip
      ∧ (PipIterator.mk ⟨⟨1, 0⟩, 0⟩ .MODE_UPHILL .STAGE_PORTS 0).operatorDeref Demo.arch
        = .ok pip
      ∧ pip.kind = .PIP_KIND_PORT ∧ pip.subindex = 0
      ∧ (∃ la, traverse Demo.arch 5 ⟨⟨0, 0⟩, 1⟩ .MODE_DOWNHILL = .ok la ∧ pip ∈ la)
      ∧ (∃ lb, traverse Demo.arch 5 ⟨⟨1, 0⟩, 0⟩ .MODE_UPHILL = .ok lb ∧ pip ∈ lb) :=
  ⟨by decide, by decide,
   C5_uphill_downhill_duality Demo.arch 5 ⟨⟨0, 0⟩, 1⟩ ⟨⟨1, 0⟩, 0⟩ 0 0 0 1 0
     (by decide) (by decide) (by decide) (by decide) (by decide) (by decide)
     (by decide) (by decide)⟩

/-! ## Strings: decimal formatting and parsing -/

theorem digitChar_spec (m : Nat) (h : m < 10) :
    (Nat.digitChar m).isDigit = true ∧ (Nat.digitChar m).toNat - 48 = m := by
  interval_cases m <;> decide

theorem digitsValue_snoc (ds : List Char) (d : Char) :
    digitsValue (ds ++ [d]) = digitsValue ds * 10 + (d.toNat - 48) := by
  simp [digitsValue, List.foldl_append]

/-- With fuel above `n`, `Nat.toDigitsCore` writes the decimal digits of `n` in front of
its accumulator: a non-empty run of digit characters whose value is `n`. -/
theorem toDigitsCore_run (fuel : Nat) :
    ∀ (n : Nat) (acc : List Char), n < fuel →
      ∃ ds, digitsValue ds = n ∧ (∀ c ∈ ds, c.isDigit = true) ∧ ds ≠ []
        ∧ Nat.toDigitsCore 10 fuel n acc = ds ++ acc := by
  induction fuel with
  | zero => intro n acc h; omega
  | succ fuel ih =>
    intro n acc h
    have hd := digitChar_spec (n % 10) (Nat.mod_lt _ (by decide))
    by_cases h0 : n / 10 = 0
    · refine ⟨[Nat.digitChar (n % 10)], ?_, ?_, by simp, ?_⟩
      · have : digitsValue [Nat.digitChar (n % 10)] = (Nat.digitChar (n % 10)).toNat - 48 := by
          simp [digitsValue]
        rw [this, hd.2]
        omega
      · intro c hc
        simp at hc
        rw [hc]; exact hd.1
      · simp [Nat.toDigitsCore, h0]
    · obtain ⟨ds, hval, hdig, _, heq⟩ := ih (n / 10) (Nat.digitChar (n % 10) :: acc) (by omega)
      refine ⟨ds ++ [Nat.digitChar (n % 10)], ?_, ?_, by simp, ?_⟩
      · rw [digitsValue_snoc, hval, hd.2]
        omega
      · intro c hc
        rcases List.mem_append.mp hc with hc | hc
        · exact hdig c hc
        · simp at hc
          rw [hc]; exact hd.1
      · simp [Nat.toDigitsCore, h0, heq]

theorem toDigits_spec (n : Nat) :
    Nat.toDigits 10 n ≠ [] ∧ (∀ c ∈ Nat.toDigits 10 n, c.isDigit = true)
      ∧ digitsValue (Nat.toDigits 10 n) = n := by
  obtain ⟨ds, hval, hdig, hne, heq⟩ := toDigitsCore_run (n + 1) n [] (by omega)
  have : Nat.toDigits 10 n = ds := by simpa [Nat.toDigits] using heq
  rw [this]
  exact ⟨hne, hdig, hval⟩

theorem takeWhile_run (p : Char → Bool) (ds : List Char) (c : Char) (rest : List Char)
    (hds : ∀ d ∈ ds, p d = true) (hc : p c = false) :
    (ds ++ c :: rest).takeWhile p = ds := by
  induction ds with
  | nil => simp [List.takeWhile, hc]
  | cons d ds ih =>
    have hd : p d = true := hds d (by simp)
    simp [List.takeWhile, hd, ih (fun e he => hds e (by simp [he]))]

theorem isDigit_not_special (c : Char) (h : c.isDigit = true) :
    isSpace c = false ∧ c ≠ '-' ∧ c ≠ '+' ∧ c ≠ '/' := by
  refine ⟨?_, ?_, ?_, ?_⟩
  · by_contra hs
    simp only [isSpace, Bool.not_eq_false, Bool.or_eq_true, decide_eq_true_eq] at hs
    rcases hs with ((((hs | hs) | hs) | hs) | hs) | hs <;> (subst hs; revert h; decide)
  all_goals (intro hs; subst hs; revert h; decide)

theorem stoiDigits_run (neg : Bool) (ds rest : List Char) (hne : ds ≠ [])
    (hds : ∀ d ∈ ds, d.isDigit = true) :
    stoiDigits neg (ds ++ '/' :: rest)
      = if -2147483648 ≤ (if neg then -(digitsValue ds : Int) else (digitsValue ds : Int))
            ∧ (if neg then -(digitsValue ds : Int) else (digitsValue ds : Int)) ≤ 2147483647
        then .ok (if neg then -(digitsValue ds : Int) else (digitsValue ds : Int))
        else .fatal := by
  have htw := takeWhile_run Char.isDigit ds '/' rest hds (by decide)
  unfold stoiDigits
  simp only [htw, hne, if_false]

/-- Parsing a formatted `int` followed by a slash gives the `int` back. -/
theorem stoi_to_string (x : Int) (rest : List Char)
    (hlo : -2147483648 ≤ x) (hhi : x ≤ 2147483647) :
    stoi (to_string x ++ '/' :: rest) = .ok x := by
  by_cases hneg : x < 0
  · obtain ⟨hne, hdig, hval⟩ := toDigits_spec x.natAbs
    have hv : -(x.natAbs : Int) = x := by omega
    have hs : to_string x ++ '/' :: rest = '-' :: (Nat.toDigits 10 x.natAbs ++ '/' :: rest) := by
      simp [to_string, hneg]
    have hdw : ('-' :: (Nat.toDigits 10 x.natAbs ++ '/' :: rest)).dropWhile isSpace
        = '-' :: (Nat.toDigits 10 x.natAbs ++ '/' :: rest) := by
      rw [List.dropWhile_cons_of_neg (by decide)]
    rw [hs]
    unfold stoi
    simp only [hdw, List.head?_cons, if_true, List.tail_cons]
    rw [stoiDigits_run true _ rest hne hdig, hval]
    simp only [↓reduceIte, hv]
    rw [if_pos ⟨hlo, hhi⟩]
  · obtain ⟨hne, hdig, hval⟩ := toDigits_spec x.toNat
    obtain ⟨d, ds, hds⟩ := List.exists_cons_of_ne_nil hne
    have hd := isDigit_not_special d (hdig d (by simp [hds]))
    have hv : (x.toNat : Int) = x := by omega
    have hs : to_string x ++ '/' :: rest = Nat.toDigits 10 x.toNat ++ '/' :: rest := by
      simp [to_string, hneg]
    have hdw : (Nat.toDigits 10 x.toNat ++ '/' :: rest).dropWhile isSpace
        = Nat.toDigits 10 x.toNat ++ '/' :: rest := by
      rw [hds, List.cons_append, List.dropWhile_cons_of_neg (by simp [hd.1])]
    have hh : (Nat.toDigits 10 x.toNat ++ '/' :: rest).head? = some d := by
      rw [hds]; rfl
    have h1 : ¬ (some d = some '-') := by simpa using hd.2.1
    have h2 : ¬ (some d = some '+') := by simpa using hd.2.2.1
    rw [hs]
    unfold stoi
    simp only [hdw, hh, h1, h2, if_false]
    rw [stoiDigits_run false _ rest hne hdig, hval]
    simp only [Bool.false_eq_true, ↓reduceIte, hv]
    rw [if_pos ⟨hlo, hhi⟩]

theorem to_string_no_slash (x : Int) : '/' ∉ to_string x := by
  intro h
  have key : ∀ n, '/' ∉ Nat.toDigits 10 n := by
    intro n hn
    have := (toDigits_spec n).2.1 _ hn
    revert this; decide
  unfold to_string at h
  split at h
  · simp at h
    exact key _ h
  · exact key _ h

/-! ## Strings: searching and splitting -/

theorem findFrom_append (c : Char) (pre suf : List Char) (i : Nat) (h : c ∉ pre) :
    findFrom c (pre ++ c :: suf) i = some (i + pre.length) := by
  induction pre generalizing i with
  | nil => simp [findFrom]
  | cons a pre ih =>
    have ha : a ≠ c := fun e => h (by simp [e])
    have hp : c ∉ pre := fun e => h (by simp [e])
    rw [List.cons_append, findFrom, if_neg ha, ih (i + 1) hp, List.length_cons]
    have e : i + 1 + pre.length = i + (pre.length + 1) := by omega
    rw [e]

theorem findFrom_some (c : Char) (l : List Char) (i j : Nat) (h : findFrom c l i = some j) :
    ∃ pre suf, l = pre ++ c :: suf ∧ c ∉ pre ∧ j = i + pre.length := by
  induction l generalizing i with
  | nil => simp [findFrom] at h
  | cons a l ih =>
    by_cases ha : a = c
    · simp [findFrom, ha] at h
      exact ⟨[], l, by simp [ha], by simp, by simp [h]⟩
    · simp only [findFrom, ha, if_false] at h
      obtain ⟨pre, suf, hl, hp, hj⟩ := ih (i + 1) h
      refine ⟨a :: pre, suf, by simp [hl], ?_, by rw [hj, List.length_cons]; omega⟩
      intro hm
      rcases List.mem_cons.mp hm with e | e
      · exact ha e.symm
      · exact hp e

theorem findFrom_none (c : Char) (l : List Char) (i : Nat) (h : c ∉ l) :
    findFrom c l i = none := by
  induction l generalizing i with
  | nil => rfl
  | cons a l ih =>
    have ha : a ≠ c := fun e => h (by simp [e])
    simp only [findFrom, ha, if_false]
    exact ih (i + 1) (fun e => h (by simp [e]))

theorem drop_past {α : Type} (pre : List α) (x : α) (rest : List α) :
    (pre ++ x :: rest).drop (pre.length + 1) = rest := by
  induction pre with
  | nil => rfl
  | cons a pre ih => simp

theorem take_through {α : Type} (pre : List α) (x : α) (rest : List α) :
    (pre ++ x :: rest).take (pre.length + 1) = pre ++ [x] := by
  induction pre with
  | nil => rfl
  | cons a pre ih => simpa using ih

/-- What `split_identifier_name` computes on a name with two slashes: `pre1` is the text
before the first slash, `pre2` the text between the two slashes. -/
theorem split_two_slashes (pre1 pre2 l : List Char) (h1 : '/' ∉ pre1) (h2 : '/' ∉ pre2) :
    split_identifier_name (pre1 ++ '/' :: (pre2 ++ '/' :: l))
      = (stoi ((pre1 ++ ['/']).drop 1)).bind fun x =>
          (stoi ((pre2 ++ '/' :: l.take 1).drop 1)).bind fun y => .ok (x, y, l) := by
  have hf1 : find (pre1 ++ '/' :: (pre2 ++ '/' :: l)) '/' 0 = some pre1.length := by
    simpa [find] using findFrom_append '/' pre1 (pre2 ++ '/' :: l) 0 h1
  have hdrop : (pre1 ++ '/' :: (pre2 ++ '/' :: l)).drop (pre1.length + 1) = pre2 ++ '/' :: l :=
    drop_past pre1 '/' _
  have hf2 : find (pre1 ++ '/' :: (pre2 ++ '/' :: l)) '/' (pre1.length + 1)
      = some (pre1.length + 1 + pre2.length) := by
    unfold find
    rw [hdrop]
    exact findFrom_append '/' pre2 l _ h2
  have hsx : substr (pre1 ++ '/' :: (pre2 ++ '/' :: l)) 1 pre1.length
      = .ok ((pre1 ++ ['/']).drop 1) := by
    have hlen : ¬ (pre1 ++ '/' :: (pre2 ++ '/' :: l)).length < 1 := by simp
    unfold substr
    rw [if_neg hlen]
    cases pre1 with
    | nil => simp
    | cons a r =>
      have := take_through r '/' (pre2 ++ '/' :: l)
      simp [this]
  have hsy : substr (pre1 ++ '/' :: (pre2 ++ '/' :: l)) (pre1.length + 2)
      (pre1.length + 1 + pre2.length - pre1.length)
      = .ok ((pre2 ++ '/' :: l.take 1).drop 1) := by
    have hlen : ¬ (pre1 ++ '/' :: (pre2 ++ '/' :: l)).length < pre1.length + 2 := by
      simp; omega
    have hd2 : (pre1 ++ '/' :: (pre2 ++ '/' :: l)).drop (pre1.length + 2)
        = (pre2 ++ '/' :: l).drop 1 := by
      rw [show pre1.length + 2 = (pre1.length + 1) + 1 by omega, ← List.drop_drop, hdrop]
    have hk : pre1.length + 1 + pre2.length - pre1.length = pre2.length + 1 := by omega
    unfold substr
    rw [if_neg hlen, hd2, hk]
    cases pre2 with
    | nil => simp
    | cons a r =>
      have := take_through r '/' l
      cases l with
      | nil => simp [this]
      | cons b l =>
        have h3 : (r ++ '/' :: b :: l).take (r.length + 1 + 1) = r ++ ['/', b] := by
          have := take_through (r ++ ['/']) b l
          simpa using this
        simpa using h3
  have hsl : substrFrom (pre1 ++ '/' :: (pre2 ++ '/' :: l)) (pre1.length + 1 + pre2.length + 1)
      = .ok l := by
    have hlen : ¬ (pre1 ++ '/' :: (pre2 ++ '/' :: l)).length
        < pre1.length + 1 + pre2.length + 1 := by
      simp; omega
    have hd3 : (pre1 ++ '/' :: (pre2 ++ '/' :: l)).drop (pre1.length + 1 + pre2.length + 1)
        = l := by
      rw [show pre1.length + 1 + pre2.length + 1 = (pre1.length + 1) + (pre2.length + 1) by omega,
        ← List.drop_drop, hdrop]
      exact drop_past pre2 '/' l
    unfold substrFrom
    rw [if_neg hlen, hd3]
  unfold split_identifier_name
  simp only [hf1, hf2, hsx, hsy, hsl, Res.ok_bind]

/-- Splitting inverts the canonical formatting. -/
theorem split_canonical (x y : Int) (l : Str)
    (hx : -2147483648 ≤ x ∧ x ≤ 2147483647) (hy : -2147483648 ≤ y ∧ y ≤ 2147483647) :
    split_identifier_name (canonicalName x y l) = .ok (x, y, l) := by
  have h1 : '/' ∉ 'X' :: to_string x := by
    intro h
    rcases List.mem_cons.mp h with e | e
    · revert e; decide
    · exact to_string_no_slash x e
  have h2 : '/' ∉ 'Y' :: to_string y := by
    intro h
    rcases List.mem_cons.mp h with e | e
    · revert e; decide
    · exact to_string_no_slash y e
  have hform : canonicalName x y l
      = ('X' :: to_string x) ++ '/' :: (('Y' :: to_string y) ++ '/' :: l) := by
    simp [canonicalName]
  rw [hform, split_two_slashes _ _ l h1 h2]
  have e1 : (('X' :: to_string x) ++ ['/']).drop 1 = to_string x ++ '/' :: [] := rfl
  have e2 : (('Y' :: to_string y) ++ '/' :: l.take 1).drop 1 = to_string y ++ '/' :: l.take 1 :=
    rfl
  rw [e1, e2, stoi_to_string x _ hx.1 hx.2, stoi_to_string y _ hy.1 hy.2]
  rfl

/-- C10: for all `int` values `x` and `y` and every string `local`,
`split_identifier_name("X" + to_string(x) + "/Y" + to_string(y) + "/" + local)` returns
`(x, y, local)`; the two slashes it splits at are the first two of the name. -/
theorem C10_split_inverts_canonical (x y : Int) (l : Str)
    (hx : -2147483648 ≤ x ∧ x ≤ 2147483647) (hy : -2147483648 ≤ y ∧ y ≤ 2147483647) :
    split_identifier_name (['X'] ++ to_string x ++ ['/', 'Y'] ++ to_string y ++ ['/'] ++ l)
        = .ok (x, y, l)
      ∧ find (['X'] ++ to_string x ++ ['/', 'Y'] ++ to_string y ++ ['/'] ++ l) '/' 0
        = some (1 + (to_string x).length)
      ∧ find (['X'] ++ to_string x ++ ['/', 'Y'] ++ to_string y ++ ['/'] ++ l) '/'
          (1 + (to_string x).length + 1)
        = some (1 + (to_string x).length + 1 + (1 + (to_string y).length)) := by
  have h1 : '/' ∉ 'X' :: to_string x := by
    intro h
    rcases List.mem_cons.mp h with e | e
    · revert e; decide
    · exact to_string_no_slash x e
  have h2 : '/' ∉ 'Y' :: to_string y := by
    intro h
    rcases List.mem_cons.mp h with e | e
    · revert e; decide
    · exact to_string_no_slash y e
  have hform : ['X'] ++ to_string x ++ ['/', 'Y'] ++ to_string y ++ ['/'] ++ l
      = ('X' :: to_string x) ++ '/' :: (('Y' :: to_string y) ++ '/' :: l) := by
    simp
  refine ⟨split_canonical x y l hx hy, ?_, ?_⟩
  · rw [hform]
    have := findFrom_append '/' ('X' :: to_string x) (('Y' :: to_string y) ++ '/' :: l) 0 h1
    simp only [find, List.drop_zero, this, List.length_cons]
    exact congrArg some (by omega)
  · rw [hform]
    have hd := drop_past ('X' :: to_string x) '/' (('Y' :: to_string y) ++ '/' :: l)
    have hk : 1 + (to_string x).length + 1 = ('X' :: to_string x).length + 1 := by
      rw [List.length_cons]; omega
    unfold find
    rw [hk, hd, findFrom_append '/' ('Y' :: to_string y) l _ h2, List.length_cons,
      List.length_cons]
    exact congrArg some (by omega)

/-- C10 at `x = -5`, `y = 120` and a local name that contains a slash and begins with a
digit. -/
theorem C10_split_inverts_canonical_witness :
    split_identifier_name "X-5/Y120/7b/c".toList = .ok (-5, 120, "7b/c".toList)
      ∧ find "X-5/Y120/7b/c".toList '/' 0 = some 3
      ∧ find "X-5/Y120/7b/c".toList '/' 4 = some 8 :=
  by
  have h := C10_split_inverts_canonical (-5) 120 "7b/c".toList (by decide) (by decide)
  have e : ['X'] ++ to_string (-5) ++ ['/', 'Y'] ++ to_string 120 ++ ['/'] ++ "7b/c".toList
      = "X-5/Y120/7b/c".toList := by decide
  have e1 : (to_string (-5)).length = 2 := by decide
  have e2 : (to_string 120).length = 3 := by decide
  rw [e, e1, e2] at h
  exact h

/-! ## Scanning definitions and the caches -/

theorem scanNames_least (t : Int) :
    ∀ (l : List Int) (i : Int) (k : Nat), l[k]? = some t → (∀ m < k, l[m]? ≠ some t) →
      scanNames t l i = some (i + k) := by
  intro l
  induction l with
  | nil => intro i k h; simp at h
  | cons n rest ih =>
    intro i k h hleast
    cases k with
    | zero =>
      simp at h
      simp [scanNames, h]
    | succ k =>
      have hn : n ≠ t := by
        intro e
        exact hleast 0 (by omega) (by simp [e])
      have h2 : rest[k]? = some t := by simpa using h
      have hl2 : ∀ m < k, rest[m]? ≠ some t := by
        intro m hm
        have := hleast (m + 1) (by omega)
        simpa using this
      rw [scanNames, if_neg hn, ih (i + 1) k h2 hl2]
      exact congrArg some (by push_cast; omega)

theorem scanNames_absent (t : Int) (l : List Int) (i : Int) (h : t ∉ l) :
    scanNames t l i = none := by
  induction l generalizing i with
  | nil => rfl
  | cons n rest ih =>
    have hn : n ≠ t := fun e => h (by simp [e])
    rw [scanNames, if_neg hn]
    exact ih (i + 1) (fun e => h (by simp [e]))

theorem Cache.find_filter {κ : Type} (c : Cache κ) (name n : Int) (h : n ≠ name) :
    Cache.find (c.filter fun e => e.1 ≠ name) n = Cache.find c n := by
  induction c with
  | nil => rfl
  | cons e rest ih =>
    obtain ⟨m, k⟩ := e
    by_cases hm : m = name
    · have hmn : ¬ m = n := fun e => h (e ▸ hm)
      have hf : (((m, k) :: rest).filter fun e => e.1 ≠ name)
          = rest.filter fun e => e.1 ≠ name :=
        List.filter_cons_of_neg (by simp [hm])
      rw [hf, ih]
      simp only [Cache.find, hmn, if_false]
    · have hf : (((m, k) :: rest).filter fun e => e.1 ≠ name)
          = (m, k) :: rest.filter fun e => e.1 ≠ name :=
        List.filter_cons_of_pos (by simp [hm])
      rw [hf]
      simp only [Cache.find]
      rw [ih]

theorem Cache.find_assign {κ : Type} (c : Cache κ) (name : Int) (key : κ) (n : Int) :
    Cache.find (c.assign name key) n = if name = n then some key else Cache.find c n := by
  by_cases h : name = n
  · simp [Cache.assign, Cache.find, h]
  · have h2 : n ≠ name := fun e => h e.symm
    have := Cache.find_filter c name n h2
    simp only [Cache.assign, Cache.find, h, if_false]
    exact this

/-- A miss in the bel cache: what `getBelByName` computes then. -/
theorem getBelByName_miss (arch : Arch) (c : Cache BelId) (name : Int)
    (h : c.find name = none) :
    getBelByName arch c name
      = (split_identifier_name (arch.str name)).bind fun r =>
          match arch.getTileType r.1 r.2.1 with
          | none => .fatal
          | some tt =>
            match scanNames (arch.id r.2.2) (tt.bels.map fun b => b.name_id) 0 with
            | some i => .ok (⟨⟨r.1, r.2.1⟩, i⟩, c.assign name ⟨⟨r.1, r.2.1⟩, i⟩)
            | none => .ok (BelId.invalid, c) := by
  unfold getBelByName
  rw [h]

/-- A miss in the wire cache: what `getWireByName` computes then. -/
theorem getWireByName_miss (arch : Arch) (c : Cache WireId) (name : Int)
    (h : c.find name = none) :
    getWireByName arch c name
      = (split_identifier_name (arch.str name)).bind fun r =>
          match arch.getTileType r.1 r.2.1 with
          | none => .fatal
          | some tt =>
            match scanNames (arch.id r.2.2) (tt.wires.map fun w => w.name_id) 0 with
            | some i => .ok (⟨⟨r.1, r.2.1⟩, i⟩, c.assign name ⟨⟨r.1, r.2.1⟩, i⟩)
            | none => .ok (WireId.invalid, c) := by
  unfold getWireByName
  rw [h]

/-! ## Resolving bel and wire names -/

/-- Every entry of a reachable bel cache is what a call on the empty cache returns. -/
theorem bel_cache_sound (arch : Arch) (c : Cache BelId) (h : BelCacheReachable arch c) :
    ∀ n k, c.find n = some k → ∃ c1, getBelByName arch [] n = .ok (k, c1) := by
  induction h with
  | empty => intro n k hf; simp [Cache.find] at hf
  | call c c1 name ret _ hcall ih =>
    intro n k hf
    cases hc : c.find name with
    | some r =>
      have : getBelByName arch c name = .ok (r, c) := by
        unfold getBelByName; rw [hc]
      rw [this] at hcall
      injection hcall with hcall
      injection hcall with _ hcc
      subst hcc
      exact ih n k hf
    | none =>
      rw [getBelByName_miss arch c name hc] at hcall
      have hfresh := getBelByName_miss arch [] name rfl
      cases hs : split_identifier_name (arch.str name) with
      | fatal => rw [hs] at hcall; cases hcall
      | ub => rw [hs] at hcall; cases hcall
      | nofuel => rw [hs] at hcall; cases hcall
      | ok r =>
        rw [hs] at hcall hfresh
        simp only [Res.ok_bind] at hcall hfresh
        cases hg : arch.getTileType r.1 r.2.1 with
        | none => rw [hg] at hcall; cases hcall
        | some tt =>
          rw [hg] at hcall hfresh
          simp only at hcall hfresh
          cases hsc : scanNames (arch.id r.2.2) (tt.bels.map fun b => b.name_id) 0 with
          | none =>
            rw [hsc] at hcall
            injection hcall with hcall
            injection hcall with _ hcc
            subst hcc
            exact ih n k hf
          | some i =>
            rw [hsc] at hcall hfresh
            injection hcall with hcall
            injection hcall with hret hcc
            subst hcc
            rw [Cache.find_assign] at hf
            by_cases hn : name = n
            · rw [if_pos hn] at hf
              injection hf with hf
              subst hn
              subst hf
              exact ⟨_, hfresh⟩
            · rw [if_neg hn] at hf
              exact ih n k hf

/-- What `getBelByName` returns for a canonical name of a tile of the grid, from any
reachable cache. -/
theorem bel_result (arch : Arch) (c : Cache BelId) (name x y : Int) (l : Str)
    (tt : TileTypePOD) (hx : -2147483648 ≤ x ∧ x ≤ 2147483647)
    (hy : -2147483648 ≤ y ∧ y ≤ 2147483647) (hname : arch.str name = canonicalName x y l)
    (hgrid : arch.getTileType x y = some tt) (hc : BelCacheReachable arch c) :
    match scanNames (arch.id l) (tt.bels.map fun b => b.name_id) 0 with
    | some i => ∃ c1, getBelByName arch c name = .ok (⟨⟨x, y⟩, i⟩, c1)
        ∧ c1.find name = some ⟨⟨x, y⟩, i⟩
    | none => getBelByName arch c name = .ok (BelId.invalid, c) := by
  have hfresh : ∀ c0 : Cache BelId, c0.find name = none →
      getBelByName arch c0 name
        = match scanNames (arch.id l) (tt.bels.map fun b => b.name_id) 0 with
          | some i => .ok (⟨⟨x, y⟩, i⟩, c0.assign name ⟨⟨x, y⟩, i⟩)
          | none => .ok (BelId.invalid, c0) := by
    intro c0 h0
    rw [getBelByName_miss arch c0 name h0, hname, split_canonical x y l hx hy]
    simp only [Res.ok_bind, hgrid]
  cases hf : c.find name with
  | none =>
    have h1 := hfresh c hf
    cases hsc : scanNames (arch.id l) (tt.bels.map fun b => b.name_id) 0 with
    | none => rw [hsc] at h1; exact h1
    | some i =>
      rw [hsc] at h1
      refine ⟨_, h1, ?_⟩
      rw [Cache.find_assign, if_pos rfl]
  | some k =>
    have hhit : getBelByName arch c name = .ok (k, c) := by
      unfold getBelByName; rw [hf]
    obtain ⟨c1, hk⟩ := bel_cache_sound arch c hc name k hf
    rw [hfresh [] rfl] at hk
    cases hsc : scanNames (arch.id l) (tt.bels.map fun b => b.name_id) 0 with
    | none =>
      rw [hsc] at hk
      injection hk with hk
      injection hk with hk _
      simp only
      rw [hhit, ← hk]
    | some i =>
      rw [hsc] at hk
      injection hk with hk
      injection hk with hk _
      simp only
      refine ⟨c, ?_, ?_⟩
      · rw [hhit, ← hk]
      · rw [hf, ← hk]

/-- Every entry of a reachable wire cache is what a call on the empty cache returns. -/
theorem wire_cache_sound (arch : Arch) (c : Cache WireId) (h : WireCacheReachable arch c) :
    ∀ n k, c.find n = some k → ∃ c1, getWireByName arch [] n = .ok (k, c1) := by
  induction h with
  | empty => intro n k hf; simp [Cache.find] at hf
  | call c c1 name ret _ hcall ih =>
    intro n k hf
    cases hc : c.find name with
    | some r =>
      have : getWireByName arch c name = .ok (r, c) := by
        unfold getWireByName; rw [hc]
      rw [this] at hcall
      injection hcall with hcall
      injection hcall with _ hcc
      subst hcc
      exact ih n k hf
    | none =>
      rw [getWireByName_miss arch c name hc] at hcall
      have hfresh := getWireByName_miss arch [] name rfl
      cases hs : split_identifier_name (arch.str name) with
      | fatal => rw [hs] at hcall; cases hcall
      | ub => rw [hs] at hcall; cases hcall
      | nofuel => rw [hs] at hcall; cases hcall
      | ok r =>
        rw [hs] at hcall hfresh
        simp only [Res.ok_bind] at hcall hfresh
        cases hg : arch.getTileType r.1 r.2.1 with
        | none => rw [hg] at hcall; cases hcall
        | some tt =>
          rw [hg] at hcall hfresh
          simp only at hcall hfresh
          cases hsc : scanNames (arch.id r.2.2) (tt.wires.map fun b => b.name_id) 0 with
          | none =>
            rw [hsc] at hcall
            injection hcall with hcall
            injection hcall with _ hcc
            subst hcc
            exact ih n k hf
          | some i =>
            rw [hsc] at hcall hfresh
            injection hcall with hcall
            injection hcall with hret hcc
            subst hcc
            rw [Cache.find_assign] at hf
            by_cases hn : name = n
            · rw [if_pos hn] at hf
              injection hf with hf
              subst hn
              subst hf
              exact ⟨_, hfresh⟩
            · rw [if_neg hn] at hf
              exact ih n k hf

/-- What `getWireByName` returns for a canonical name of a tile of the grid, from any
reachable cache. -/
theorem wire_result (arch : Arch) (c : Cache WireId) (name x y : Int) (l : Str)
    (tt : TileTypePOD) (hx : -2147483648 ≤ x ∧ x ≤ 2147483647)
    (hy : -2147483648 ≤ y ∧ y ≤ 2147483647) (hname : arch.str name = canonicalName x y l)
    (hgrid : arch.getTileType x y = some tt) (hc : WireCacheReachable arch c) :
    match scanNames (arch.id l) (tt.wires.map fun b => b.name_id) 0 with
    | some i => ∃ c1, getWireByName arch c name = .ok (⟨⟨x, y⟩, i⟩, c1)
        ∧ c1.find name = some ⟨⟨x, y⟩, i⟩
    | none => getWireByName arch c name = .ok (WireId.invalid, c) := by
  have hfresh : ∀ c0 : Cache WireId, c0.find name = none →
      getWireByName arch c0 name
        = match scanNames (arch.id l) (tt.wires.map fun b => b.name_id) 0 with
          | some i => .ok (⟨⟨x, y⟩, i⟩, c0.assign name ⟨⟨x, y⟩, i⟩)
          | none => .ok (WireId.invalid, c0) := by
    intro c0 h0
    rw [getWireByName_miss arch c0 name h0, hname, split_canonical x y l hx hy]
    simp only [Res.ok_bind, hgrid]
  cases hf : c.find name with
  | none =>
    have h1 := hfresh c hf
    cases hsc : scanNames (arch.id l) (tt.wires.map fun b => b.name_id) 0 with
    | none => rw [hsc] at h1; exact h1
    | some i =>
      rw [hsc] at h1
      refine ⟨_, h1, ?_⟩
      rw [Cache.find_assign, if_pos rfl]
  | some k =>
    have hhit : getWireByName arch c name = .ok (k, c) := by
      unfold getWireByName; rw [hf]
    obtain ⟨c1, hk⟩ := wire_cache_sound arch c hc name k hf
    rw [hfresh [] rfl] at hk
    cases hsc : scanNames (arch.id l) (tt.wires.map fun b => b.name_id) 0 with
    | none =>
      rw [hsc] at hk
      injection hk with hk
      injection hk with hk _
      simp only
      rw [hhit, ← hk]
    | some i =>
      rw [hsc] at hk
      injection hk with hk
      injection hk with hk _
      simp only
      refine ⟨c, ?_, ?_⟩
      · rw [hhit, ← hk]
      · rw [hf, ← hk]

/-- C8: for a name `"X<x>/Y<y>/<local>"` of a tile of the grid and any cache that earlier
calls have built, `getBelByName` (`getWireByName`) returns the key `((x, y), i)` for the
least index `i` of a bel (wire) definition of the tile type whose name identifier is the
interned `<local>`, and the cache then maps the name to that key; if no definition matches
it returns the invalid key and leaves the cache unchanged. The returned key is the one a
call on the empty cache returns. -/
theorem C8_getBelByName_getWireByName (arch : Arch) (bel_by_name : Cache BelId)
    (wire_by_name : Cache WireId) (name x y : Int) (l : Str) (tt : TileTypePOD)
    (hx : -2147483648 ≤ x ∧ x ≤ 2147483647) (hy : -2147483648 ≤ y ∧ y ≤ 2147483647)
    (hname : arch.str name = ['X'] ++ to_string x ++ ['/', 'Y'] ++ to_string y ++ ['/'] ++ l)
    (hgrid : arch.getTileType x y = some tt)
    (hb : BelCacheReachable arch bel_by_name) (hw : WireCacheReachable arch wire_by_name) :
    ((∀ i : Nat, (tt.bels.map fun b => b.name_id)[i]? = some (arch.id l) →
        (∀ j < i, (tt.bels.map fun b => b.name_id)[j]? ≠ some (arch.id l)) →
        ∃ c1 c2, getBelByName arch bel_by_name name = .ok (⟨⟨x, y⟩, i⟩, c1)
          ∧ c1.find name = some ⟨⟨x, y⟩, i⟩
          ∧ getBelByName arch [] name = .ok (⟨⟨x, y⟩, i⟩, c2))
      ∧ ((∀ b ∈ tt.bels, b.name_id ≠ arch.id l) →
        getBelByName arch bel_by_name name = .ok (BelId.invalid, bel_by_name)))
    ∧ ((∀ i : Nat, (tt.wires.map fun w => w.name_id)[i]? = some (arch.id l) →
        (∀ j < i, (tt.wires.map fun w => w.name_id)[j]? ≠ some (arch.id l)) →
        ∃ c1 c2, getWireByName arch wire_by_name name = .ok (⟨⟨x, y⟩, i⟩, c1)
          ∧ c1.find name = some ⟨⟨x, y⟩, i⟩
          ∧ getWireByName arch [] name = .ok (⟨⟨x, y⟩, i⟩, c2))
      ∧ ((∀ w ∈ tt.wires, w.name_id ≠ arch.id l) →
        getWireByName arch wire_by_name name = .ok (WireId.invalid, wire_by_name))) := by
  have hb1 := bel_result arch bel_by_name name x y l tt hx hy hname hgrid hb
  have hb0 := bel_result arch [] name x y l tt hx hy hname hgrid .empty
  have hw1 := wire_result arch wire_by_name name x y l tt hx hy hname hgrid hw
  have hw0 := wire_result arch [] name x y l tt hx hy hname hgrid .empty
  refine ⟨⟨?_, ?_⟩, ⟨?_, ?_⟩⟩
  · intro i hi hleast
    have hs := scanNames_least (arch.id l) _ 0 i hi hleast
    rw [hs] at hb1 hb0
    simp only [zero_add] at hb1 hb0
    obtain ⟨c1, h1, h2⟩ := hb1
    obtain ⟨c2, h3, _⟩ := hb0
    exact ⟨c1, c2, h1, h2, h3⟩
  · intro hnone
    have hs := scanNames_absent (arch.id l) (tt.bels.map fun b => b.name_id) 0 (by
      intro hm
      obtain ⟨b, hbm, hbe⟩ := List.mem_map.mp hm
      exact hnone b hbm hbe)
    rw [hs] at hb1
    exact hb1
  · intro i hi hleast
    have hs := scanNames_least (arch.id l) _ 0 i hi hleast
    rw [hs] at hw1 hw0
    simp only [zero_add] at hw1 hw0
    obtain ⟨c1, h1, h2⟩ := hw1
    obtain ⟨c2, h3, _⟩ := hw0
    exact ⟨c1, c2, h1, h2, h3⟩
  · intro hnone
    have hs := scanNames_absent (arch.id l) (tt.wires.map fun w => w.name_id) 0 (by
      intro hm
      obtain ⟨w, hwm, hwe⟩ := List.mem_map.mp hm
      exact hnone w hwm hwe)
    rw [hs] at hw1
    exact hw1

/-- C8 on the demo device: the name `"X1/Y0/M"` (identifier 11) resolves to the first of
the two bels called `M`, index 1, of tile `(1,0)`, from a cache that an earlier call for
the same name has filled. -/
theorem C8_getBelByName_getWireByName_witness :
    ∃ c1 c2, getBelByName Demo.arch [(11, ⟨⟨1, 0⟩, 1⟩)] 11 = .ok (⟨⟨1, 0⟩, (1 : Nat)⟩, c1)
      ∧ c1.find 11 = some ⟨⟨1, 0⟩, (1 : Nat)⟩
      ∧ getBelByName Demo.arch [] 11 = .ok (⟨⟨1, 0⟩, (1 : Nat)⟩, c2) :=
  (C8_getBelByName_getWireByName Demo.arch [(11, ⟨⟨1, 0⟩, 1⟩)] [] 11 1 0 ['M']
    Demo.tables.tileType (by decide) (by decide) (by decide) (by decide)
    (.call [] _ 11 ⟨⟨1, 0⟩, 1⟩ .empty (by decide)) .empty).1.1 1 (by decide) (by decide)

/-! ## Fatal and non-fatal inputs of the resolvers -/

/-- A name with fewer than two slashes fails one of the two assertions. -/
theorem split_few_slashes (name : Str) (h : name.count '/' < 2) :
    split_identifier_name name = .fatal := by
  cases h1 : find name '/' 0 with
  | none => simp only [split_identifier_name, h1]
  | some i =>
    cases h2 : find name '/' (i + 1) with
    | none => simp only [split_identifier_name, h1, h2]
    | some j =>
      exfalso
      obtain ⟨pre, suf, hn, _, hi⟩ := findFrom_some '/' name 0 i (by simpa [find] using h1)
      have hi2 : i = pre.length := by omega
      have hd : name.drop (i + 1) = suf := by
        rw [hn, hi2]; exact drop_past pre '/' suf
      unfold find at h2
      rw [hd] at h2
      obtain ⟨pre2, suf2, hs, _, _⟩ := findFrom_some '/' _ _ j h2
      rw [hn, hs] at h
      simp [List.count_append, List.count_cons] at h
      omega

/-- When `split_identifier_name` returns, the name has two slashes. -/
theorem split_ok_slashes (name : Str) (r : Int × Int × Str)
    (h : split_identifier_name name = .ok r) : 2 ≤ name.count '/' := by
  by_contra hc
  rw [split_few_slashes name (by omega)] at h
  cases h

/-- Filling the cache from a range: where an entry of the result comes from. -/
theorem fillPipCache_find (arch : Arch) :
    ∀ (range : List PipId) (c c1 : Cache PipId), fillPipCache arch range c = .ok c1 →
      ∀ n q, c1.find n = some q →
        c.find n = some q ∨ (q ∈ range ∧ getPipName arch q = .ok n) := by
  intro range
  induction range with
  | nil =>
    intro c c1 h n q hf
    injection h with h
    subst h
    exact Or.inl hf
  | cons curr rest ih =>
    intro c c1 h n q hf
    unfold fillPipCache at h
    cases hm : getPipName arch curr with
    | fatal => rw [hm] at h; cases h
    | ub => rw [hm] at h; cases h
    | nofuel => rw [hm] at h; cases h
    | ok m =>
      rw [hm] at h
      simp only [Res.ok_bind] at h
      rcases ih _ c1 h n q hf with h1 | ⟨h1, h2⟩
      · rw [Cache.find_assign] at h1
        by_cases hmn : m = n
        · rw [if_pos hmn] at h1
          injection h1 with h1
          subst h1
          subst hmn
          exact Or.inr ⟨by simp, hm⟩
        · rw [if_neg hmn] at h1
          exact Or.inl h1
      · exact Or.inr ⟨by simp [h1], h2⟩

/-- Every entry of a reachable pip cache holds a pip under its own name, and an all-pips
range of one tile visits that pip. -/
theorem pip_cache_sound (arch : Arch) (c : Cache PipId) (h : PipCacheReachable arch c) :
    ∀ n q, c.find n = some q →
      getPipName arch q = .ok n ∧ ∃ b, q ∈ arch.allPipRange b (b + 1) := by
  induction h with
  | empty => intro n q hf; simp [Cache.find] at hf
  | call c c1 name ret _ hcall ih =>
    intro n q hf
    cases hc : c.find name with
    | some r =>
      have : getPipByName arch c name = .ok (r, c) := by
        unfold getPipByName; rw [hc]
      rw [this] at hcall
      injection hcall with hcall
      injection hcall with _ hcc
      subst hcc
      exact ih n q hf
    | none =>
      unfold getPipByName at hcall
      rw [hc] at hcall
      simp only at hcall
      cases hs : split_identifier_name (arch.str name) with
      | fatal => rw [hs] at hcall; cases hcall
      | ub => rw [hs] at hcall; cases hcall
      | nofuel => rw [hs] at hcall; cases hcall
      | ok r =>
        rw [hs] at hcall
        simp only [Res.ok_bind] at hcall
        cases hfill : fillPipCache arch
            (arch.allPipRange (r.1 + arch.width * r.2.1) (r.1 + arch.width * r.2.1 + 1)) c with
        | fatal => rw [hfill] at hcall; cases hcall
        | ub => rw [hfill] at hcall; cases hcall
        | nofuel => rw [hfill] at hcall; cases hcall
        | ok c2 =>
          rw [hfill] at hcall
          simp only [Res.ok_bind] at hcall
          cases hfn : c2.find name with
          | none => rw [hfn] at hcall; cases hcall
          | some ret2 =>
            rw [hfn] at hcall
            injection hcall with hcall
            injection hcall with _ hcc
            subst hcc
            rcases fillPipCache_find arch _ c c2 hfill n q hf with h1 | ⟨h1, h2⟩
            · exact ih n q h1
            · exact ⟨h2, _, h1⟩

/-- C7: for a pip `p` other than the invalid key, at location `(x, y)`: if `p` is PIP-kind,
`getPipName(p)` is the identifier of `"X" + x + "/Y" + y + "/" + src + ".->." + dst` with
`src`, `dst` the local names of the source and destination wires of `p`; if `p` is
PORT-kind, with `(x, y)` in the grid and `p.index` a port of the tile type, it is the
identifier of `"X" + x + "/Y" + y + "/" + port + "/" + subindex + ".->." + dst` with `port`
the name of port `p.index`. In the device with one tile `(0,0)`, wires `A`, `B` and one pip
`A -> B`, UPHILL of `B` and DOWNHILL of `A` yield the same single pip, named
`"X0/Y0/A.->.B"`. -/
theorem C7_getPipName_format (arch : Arch) (p : PipId) (hp : p ≠ PipId.invalid) :
    (p.kind = .PIP_KIND_PIP →
      getPipName arch p = .ok (arch.id (['X'] ++ to_string p.location.x ++ ['/', 'Y']
        ++ to_string p.location.y ++ ['/']
        ++ arch.str (arch.getWireBasename (arch.getPipSrcWire p)) ++ ".->.".toList
        ++ arch.str (arch.getWireBasename (arch.getPipDstWire p)))))
    ∧ (p.kind = .PIP_KIND_PORT → ∀ (tt : TileTypePOD) (port : TileTypePortPOD),
      arch.getTileType p.location.x p.location.y = some tt →
      readAt tt.ports p.index = some port →
      getPipName arch p = .ok (arch.id (['X'] ++ to_string p.location.x ++ ['/', 'Y']
        ++ to_string p.location.y ++ ['/'] ++ arch.str port.name_id ++ ['/']
        ++ to_string p.subindex ++ ".->.".toList
        ++ arch.str (arch.getWireBasename (arch.getPipDstWire p)))))
    ∧ traverse Scenario.arch 2 ⟨⟨0, 0⟩, 1⟩ .MODE_UPHILL = .ok [⟨⟨0, 0⟩, .PIP_KIND_PIP, 0, -1⟩]
    ∧ traverse Scenario.arch 2 ⟨⟨0, 0⟩, 0⟩ .MODE_DOWNHILL
        = .ok [⟨⟨0, 0⟩, .PIP_KIND_PIP, 0, -1⟩]
    ∧ (getPipName Scenario.arch ⟨⟨0, 0⟩, .PIP_KIND_PIP, 0, -1⟩).bind
          (fun n => .ok (Scenario.arch.str n))
        = .ok "X0/Y0/A.->.B".toList := by
  refine ⟨?_, ?_, by decide, by decide, by decide⟩
  · intro hk
    unfold getPipName
    rw [if_neg hp, if_pos hk]
    rfl
  · intro hk tt port hg hport
    have hk2 : ¬ p.kind = .PIP_KIND_PIP := by rw [hk]; decide
    unfold getPipName
    rw [if_neg hp, if_neg hk2, hg]
    simp only [readRes, hport, Res.ok_bind]
    rfl

/-- C7 on the demo device: the port pip `((1,0), PORT, 1, 1)` is named
`"X1/Y0/W/1.->.C"`, identifier 18. -/
theorem C7_getPipName_format_witness :
    getPipName Demo.arch ⟨⟨1, 0⟩, .PIP_KIND_PORT, 1, 1⟩ = .ok 18
    ∧ Demo.arch.str 18 = "X1/Y0/W/1.->.C".toList := by
  have h := (C7_getPipName_format Demo.arch ⟨⟨1, 0⟩, .PIP_KIND_PORT, 1, 1⟩ (by decide)).2.1
    rfl Demo.tables.tileType ⟨5⟩ (by decide) (by decide)
  have e : Demo.arch.id (['X'] ++ to_string (1 : Int) ++ ['/', 'Y'] ++ to_string (0 : Int)
      ++ ['/'] ++ Demo.arch.str 5 ++ ['/'] ++ to_string (1 : Int) ++ ".->.".toList
      ++ Demo.arch.str (Demo.arch.getWireBasename
          (Demo.arch.getPipDstWire ⟨⟨1, 0⟩, .PIP_KIND_PORT, 1, 1⟩))) = 18 := by decide
  exact ⟨h.trans (congrArg Res.ok e), by decide⟩

/-! ## Bel pins -/

theorem pinTypeScan_skip (FI FO : Int) (ndebug : Bool) (pin : Int)
    (pre rest : List BelTypePinPOD) (hpre : ∀ q ∈ pre, q.name_id ≠ pin) :
    pinTypeScan FI FO ndebug pin (pre ++ rest) = pinTypeScan FI FO ndebug pin rest := by
  induction pre with
  | nil => rfl
  | cons q pre ih =>
    have hq : q.name_id ≠ pin := hpre q (by simp)
    rw [List.cons_append, pinTypeScan, if_neg hq]
    exact ih (fun r hr => hpre r (by simp [hr]))

/-- C11: for a bel other than the invalid key and a pin identifier, if `i` is the least
index of a pin definition of the bel type with that identifier, `getBelPinWire` returns
the wire with the bel's location and index `pin_wires[i]`; if no pin definition has the
identifier, it returns the invalid wire. -/
theorem C11_getBelPinWire (arch : Arch) (bel : BelId) (pin : Int)
    (hbel : bel ≠ BelId.invalid) :
    (∀ (i : Nat) (wi : Int),
        ((arch.getBelTypeInfo bel).pins.map fun p => p.name_id)[i]? = some pin →
        (∀ j < i, ((arch.getBelTypeInfo bel).pins.map fun p => p.name_id)[j]? ≠ some pin) →
        readAt (arch.getTileTypeBel bel).pin_wires i = some wi →
        getBelPinWire arch bel pin = .ok ⟨bel.location, wi⟩)
    ∧ ((∀ p ∈ (arch.getBelTypeInfo bel).pins, p.name_id ≠ pin) →
        getBelPinWire arch bel pin = .ok WireId.invalid) := by
  constructor
  · intro i wi hi hleast hw
    have hs := scanNames_least pin _ 0 i hi hleast
    simp only [zero_add] at hs
    unfold getBelPinWire
    rw [if_neg hbel, hs]
    simp only [readRes, hw, Res.ok_bind]
  · intro hnone
    have hs := scanNames_absent pin
      ((arch.getBelTypeInfo bel).pins.map fun p => p.name_id) 0 (by
        intro hm
        obtain ⟨p, hpm, hpe⟩ := List.mem_map.mp hm
        exact hnone p hpm hpe)
    unfold getBelPinWire
    rw [if_neg hbel, hs]

/-- C11 on the demo device: pin `I` has two definitions, at indices 0 and 5; for the second
bel `M` of tile `(1,0)` the wire is `pin_wires[0] = 2`. -/
theorem C11_getBelPinWire_witness :
    getBelPinWire Demo.arch ⟨⟨1, 0⟩, 2⟩ 10 = .ok ⟨⟨1, 0⟩, 2⟩ :=
  (C11_getBelPinWire Demo.arch ⟨⟨1, 0⟩, 2⟩ 10 (by decide)).1 0 2
    (by decide) (by decide) (by decide)

/-- C12 (amended): for a bel other than the invalid key and a pin identifier whose first
matching pin definition has neither `FLAG_INPUT` nor `FLAG_OUTPUT` set, `getBelPinType`
fails the assertion `assert(is_out)`; in a build that defines `NDEBUG` the assertion is
absent and the result is `PORT_OUT`. `PORT_INOUT` is what `getBelPinType` returns for a
pin identifier that no pin definition has. -/
theorem C12_getBelPinType_no_flag (arch : Arch) (FLAG_INPUT FLAG_OUTPUT : Int) (bel : BelId)
    (pin : Int) (hbel : bel ≠ BelId.invalid) :
    (∀ (pre rest : List BelTypePinPOD) (p : BelTypePinPOD),
        (arch.getBelTypeInfo bel).pins = pre ++ p :: rest →
        (∀ q ∈ pre, q.name_id ≠ pin) → p.name_id = pin →
        Int.land p.flags FLAG_INPUT = 0 → Int.land p.flags FLAG_OUTPUT = 0 →
        getBelPinType arch FLAG_INPUT FLAG_OUTPUT false bel pin = .fatal
          ∧ getBelPinType arch FLAG_INPUT FLAG_OUTPUT true bel pin = .ok .PORT_OUT)
    ∧ ((∀ p ∈ (arch.getBelTypeInfo bel).pins, p.name_id ≠ pin) →
        ∀ ndebug, getBelPinType arch FLAG_INPUT FLAG_OUTPUT ndebug bel pin
          = .ok .PORT_INOUT) := by
  constructor
  · intro pre rest p hpins hpre hp hin hout
    have hform : ∀ ndebug, getBelPinType arch FLAG_INPUT FLAG_OUTPUT ndebug bel pin
        = pinTypeScan FLAG_INPUT FLAG_OUTPUT ndebug pin (p :: rest) := by
      intro ndebug
      unfold getBelPinType
      rw [if_neg hbel, hpins, pinTypeScan_skip _ _ _ _ pre _ hpre]
    rw [hform false, hform true]
    simp [pinTypeScan, hp, hin, hout]
  · intro hnone ndebug
    unfold getBelPinType
    rw [if_neg hbel]
    have h := pinTypeScan_skip FLAG_INPUT FLAG_OUTPUT ndebug pin
      (arch.getBelTypeInfo bel).pins [] hnone
    rw [List.append_nil] at h
    rw [h]
    rfl

/-- C12 (amended) on the demo device, with `FLAG_INPUT = 1` and `FLAG_OUTPUT = 2`: pin `M`
(identifier 9) has flags 0. -/
theorem C12_getBelPinType_no_flag_witness :
    getBelPinType Demo.arch 1 2 false ⟨⟨1, 0⟩, 1⟩ 9 = .fatal
      ∧ getBelPinType Demo.arch 1 2 true ⟨⟨1, 0⟩, 1⟩ 9 = .ok .PORT_OUT :=
  (C12_getBelPinType_no_flag Demo.arch 1 2 ⟨⟨1, 0⟩, 1⟩ 9 (by decide)).1
    [⟨10, 1⟩, ⟨8, 2⟩] [⟨4, 3⟩, ⟨5, 5⟩, ⟨10, 2⟩] ⟨9, 0⟩
    (by decide) (by decide) (by decide) (by decide) (by decide)

/-- C12 as stated fails: on the demo device, with `FLAG_INPUT = 1` and `FLAG_OUTPUT = 2`,
pin `M` of the bel type matches the pin definition with flags 0, and `getBelPinType` does
not return `PORT_INOUT`, with assertions or without. -/
theorem C12_counterexample :
    (Demo.arch.getBelTypeInfo ⟨⟨1, 0⟩, 1⟩).pins[2]? = some ⟨9, 0⟩
    ∧ Int.land 0 1 = 0 ∧ Int.land 0 2 = 0
    ∧ getBelPinType Demo.arch 1 2 false ⟨⟨1, 0⟩, 1⟩ 9 ≠ .ok .PORT_INOUT
    ∧ getBelPinType Demo.arch 1 2 true ⟨⟨1, 0⟩, 1⟩ 9 ≠ .ok .PORT_INOUT := by
  decide

/-- C13: for a bel other than the invalid key and a pin identifier, let `p` be the first
pin definition of the bel type with that identifier. `getBelPinType` returns `PORT_INOUT`
when `FLAG_INPUT` and `FLAG_OUTPUT` are both set in `p.flags`, `PORT_IN` when only
`FLAG_INPUT` is set, `PORT_OUT` when only `FLAG_OUTPUT` is set, in either build; a
definition `p1` in the place of `p` that agrees with it on the two flags gives the same
result, whatever its other bits. -/
theorem C13_getBelPinType_flags (arch : Arch) (FLAG_INPUT FLAG_OUTPUT : Int) (ndebug : Bool)
    (bel : BelId) (pin : Int) (pre rest : List BelTypePinPOD) (p : BelTypePinPOD)
    (hbel : bel ≠ BelId.invalid)
    (hpins : (arch.getBelTypeInfo bel).pins = pre ++ p :: rest)
    (hpre : ∀ q ∈ pre, q.name_id ≠ pin) (hp : p.name_id = pin) :
    (Int.land p.flags FLAG_INPUT ≠ 0 → Int.land p.flags FLAG_OUTPUT ≠ 0 →
        getBelPinType arch FLAG_INPUT FLAG_OUTPUT ndebug bel pin = .ok .PORT_INOUT)
    ∧ (Int.land p.flags FLAG_INPUT ≠ 0 → Int.land p.flags FLAG_OUTPUT = 0 →
        getBelPinType arch FLAG_INPUT FLAG_OUTPUT ndebug bel pin = .ok .PORT_IN)
    ∧ (Int.land p.flags FLAG_INPUT = 0 → Int.land p.flags FLAG_OUTPUT ≠ 0 →
        getBelPinType arch FLAG_INPUT FLAG_OUTPUT ndebug bel pin = .ok .PORT_OUT)
    ∧ (∀ p1 : BelTypePinPOD, p1.name_id = pin →
        (Int.land p1.flags FLAG_INPUT ≠ 0 ↔ Int.land p.flags FLAG_INPUT ≠ 0) →
        (Int.land p1.flags FLAG_OUTPUT ≠ 0 ↔ Int.land p.flags FLAG_OUTPUT ≠ 0) →
        pinTypeScan FLAG_INPUT FLAG_OUTPUT ndebug pin (pre ++ p1 :: rest)
          = getBelPinType arch FLAG_INPUT FLAG_OUTPUT ndebug bel pin) := by
  have hform : getBelPinType arch FLAG_INPUT FLAG_OUTPUT ndebug bel pin
      = pinTypeScan FLAG_INPUT FLAG_OUTPUT ndebug pin (p :: rest) := by
    unfold getBelPinType
    rw [if_neg hbel, hpins, pinTypeScan_skip _ _ _ _ pre _ hpre]
  refine ⟨?_, ?_, ?_, ?_⟩
  · intro hin hout
    rw [hform]
    simp [pinTypeScan, hp, hin, hout]
  · intro hin hout
    rw [hform]
    simp [pinTypeScan, hp, hin, hout]
  · intro hin hout
    rw [hform]
    simp [pinTypeScan, hp, hin, hout]
  · intro p1 hp1 hi ho
    rw [hform, pinTypeScan_skip _ _ _ _ pre _ hpre]
    simp only [pinTypeScan, hp, hp1, if_true]
    by_cases hin : Int.land p.flags FLAG_INPUT = 0 <;>
      by_cases hout : Int.land p.flags FLAG_OUTPUT = 0 <;>
      simp_all

/-- C13 on the demo device, with `FLAG_INPUT = 1` and `FLAG_OUTPUT = 2`: pin `W`
(identifier 5) has flags 5, the input flag and a further bit, and is an input. -/
theorem C13_getBelPinType_flags_witness :
    getBelPinType Demo.arch 1 2 false ⟨⟨1, 0⟩, 1⟩ 5 = .ok .PORT_IN :=
  (C13_getBelPinType_flags Demo.arch 1 2 false ⟨⟨1, 0⟩, 1⟩ 5
    [⟨10, 1⟩, ⟨8, 2⟩, ⟨9, 0⟩, ⟨4, 3⟩] [⟨10, 2⟩] ⟨5, 5⟩
    (by decide) (by decide) (by decide) (by decide)).2.1 (by decide) (by decide)

/-! ## The growable arena -/

/-- A `push_back` whose guard holds without wrap-around: what it returns. -/
theorem SparseVector.push_back_ok {τ : Type} (s : Nat) (v : SparseVector τ) (x : τ)
    (hs : 1 ≤ s) (hw : v.length_ + s ≤ WORD) (h : v.cursor_ * s < v.length_) :
    SparseVector.push_back s v x
      = .ok { start_ := fun i => if i = v.cursor_ then x else v.start_ i,
              length_ := v.length_, cursor_ := v.cursor_ + 1 } := by
  have h1 : (v.cursor_ * s) % WORD = v.cursor_ * s := Nat.mod_eq_of_lt (by omega)
  have h2 : (v.cursor_ + 1) * s = v.cursor_ * s + s := by ring
  have h3 : v.cursor_ + 1 ≤ (v.cursor_ + 1) * s := Nat.le_mul_of_pos_right _ hs
  have h4 : (v.cursor_ + 1) % WORD = v.cursor_ + 1 := Nat.mod_eq_of_lt (by omega)
  unfold SparseVector.push_back
  rw [h1, if_pos h, h4]

/-- A `push_back` at a count whose first byte lies at or past the reservation is fatal. -/
theorem SparseVector.push_back_fatal {τ : Type} (s : Nat) (v : SparseVector τ) (x : τ)
    (hw : v.cursor_ * s < WORD) (h : v.length_ ≤ v.cursor_ * s) :
    SparseVector.push_back s v x = .fatal := by
  have h1 : (v.cursor_ * s) % WORD = v.cursor_ * s := Nat.mod_eq_of_lt hw
  unfold SparseVector.push_back
  rw [h1, if_neg (by omega)]

/-- A successful `push_back` from a state whose count has not run past the reservation:
the guard held without wrap-around. -/
theorem SparseVector.push_back_inv {τ : Type} (s : Nat) (v v1 : SparseVector τ) (x : τ)
    (hs : 1 ≤ s) (hw : v.length_ + s ≤ WORD) (hinv : v.cursor_ * s < v.length_ + s)
    (h : SparseVector.push_back s v x = .ok v1) :
    v.cursor_ * s < v.length_
      ∧ v1 = { start_ := fun i => if i = v.cursor_ then x else v.start_ i,
               length_ := v.length_, cursor_ := v.cursor_ + 1 } := by
  have h1 : (v.cursor_ * s) % WORD = v.cursor_ * s := Nat.mod_eq_of_lt (by omega)
  have hg : v.cursor_ * s < v.length_ := by
    by_contra hc
    unfold SparseVector.push_back at h
    rw [h1, if_neg hc] at h
    cases h
  refine ⟨hg, ?_⟩
  rw [SparseVector.push_back_ok s v x hs hw hg] at h
  injection h with h
  exact h.symm

/-- A successful run of `push_back` calls: the count grows by the number of calls, the
reservation stays, the old slots keep their values and the new slots hold the appended
values in order. -/
theorem SparseVector.pushAll_spec {τ : Type} (s : Nat) (hs : 1 ≤ s) :
    ∀ (vs : List τ) (v v1 : SparseVector τ), v.length_ + s ≤ WORD →
      v.cursor_ * s < v.length_ + s → SparseVector.pushAll s v vs = .ok v1 →
      v1.cursor_ = v.cursor_ + vs.length ∧ v1.length_ = v.length_
        ∧ v1.cursor_ * s < v1.length_ + s
        ∧ (vs ≠ [] → (v1.cursor_ - 1) * s < v1.length_)
        ∧ (∀ i < v.cursor_, v1.start_ i = v.start_ i)
        ∧ (∀ j, ∀ hj : j < vs.length, v1.start_ (v.cursor_ + j) = vs[j]) := by
  intro vs
  induction vs with
  | nil =>
    intro v v1 _ hinv h
    injection h with h
    subst h
    exact ⟨rfl, rfl, hinv, fun hne => absurd rfl hne, fun _ _ => rfl,
      fun j hj => absurd hj (by simp)⟩
  | cons x xs ih =>
    intro v v1 hw hinv h
    unfold SparseVector.pushAll at h
    cases hp : SparseVector.push_back s v x with
    | fatal => rw [hp] at h; cases h
    | ub => rw [hp] at h; cases h
    | nofuel => rw [hp] at h; cases h
    | ok v2 =>
      rw [hp] at h
      simp only [Res.ok_bind] at h
      obtain ⟨hg, hv2⟩ := SparseVector.push_back_inv s v v2 x hs hw hinv hp
      have hc2 : v2.cursor_ = v.cursor_ + 1 := by rw [hv2]
      have hl2 : v2.length_ = v.length_ := by rw [hv2]
      have hmul : (v.cursor_ + 1) * s = v.cursor_ * s + s := by ring
      obtain ⟨h1, h2, h3, h4, h5, h6⟩ := ih v2 v1 (by rw [hl2]; exact hw)
        (by rw [hc2, hl2, hmul]; omega) h
      refine ⟨by rw [h1, hc2, List.length_cons]; omega, by rw [h2, hl2], h3, ?_, ?_, ?_⟩
      · intro _
        by_cases hxs : xs = []
        · subst hxs
          rw [h1, hc2, h2, hl2]
          simpa using hg
        · exact h4 hxs
      · intro i hi
        rw [h5 i (by omega), hv2]
        simp only
        rw [if_neg (by omega)]
      · intro j hj
        cases j with
        | zero =>
          rw [Nat.add_zero, h5 v.cursor_ (by omega), hv2]
          simp
        | succ j =>
          have hj2 : j < xs.length := by simpa using hj
          have := h6 j hj2
          rw [hc2] at this
          rw [show v.cursor_ + (j + 1) = v.cursor_ + 1 + j by omega, this]
          simp

/-- A run of `push_back` calls whose elements all fit in the reservation succeeds. -/
theorem SparseVector.pushAll_fits {τ : Type} (s : Nat) (hs : 1 ≤ s) :
    ∀ (vs : List τ) (v : SparseVector τ), v.length_ + s ≤ WORD →
      (v.cursor_ + vs.length) * s ≤ v.length_ →
      ∃ v1, SparseVector.pushAll s v vs = .ok v1 := by
  intro vs
  induction vs with
  | nil => intro v _ _; exact ⟨v, rfl⟩
  | cons x xs ih =>
    intro v hw hfit
    have hlen : (v.cursor_ + (x :: xs).length) * s
        = v.cursor_ * s + s + xs.length * s := by
      rw [List.length_cons]; ring
    have hg : v.cursor_ * s < v.length_ := by omega
    unfold SparseVector.pushAll
    rw [SparseVector.push_back_ok s v x hs hw hg]
    simp only [Res.ok_bind]
    have hfit2 : (v.cursor_ + 1 + xs.length) * s ≤ v.length_ := by
      have : (v.cursor_ + 1 + xs.length) * s = v.cursor_ * s + s + xs.length * s := by ring
      omega
    exact ih { start_ := fun i => if i = v.cursor_ then x else v.start_ i,
               length_ := v.length_, cursor_ := v.cursor_ + 1 } hw hfit2

theorem SparseVector.pushAll_append {τ : Type} (s : Nat) :
    ∀ (a b : List τ) (v : SparseVector τ),
      SparseVector.pushAll s v (a ++ b)
        = (SparseVector.pushAll s v a).bind fun v1 => SparseVector.pushAll s v1 b := by
  intro a
  induction a with
  | nil => intro b v; rfl
  | cons x xs ih =>
    intro b v
    simp only [List.cons_append, SparseVector.pushAll]
    cases SparseVector.push_back s v x with
    | ok v2 => simp only [Res.ok_bind]; exact ih b v2
    | fatal => rfl
    | ub => rfl
    | nofuel => rfl

/-- The state a successful constructor returns. -/
theorem SparseVector.construct_ok {τ : Type} (zero : τ) (n : Nat) (v0 : SparseVector τ)
    (h : SparseVector.construct zero true n = .ok v0) :
    v0.length_ = n ∧ v0.cursor_ = 0 := by
  unfold SparseVector.construct at h
  rw [if_pos rfl] at h
  injection h with h
  subst h
  exact ⟨rfl, rfl⟩

/-- C14: arena non-invalidation. For a vector built by the constructor and successful
`push_back` calls, with count `c`, any further successful `push_back` calls leave `get(i)`
unchanged for every `i < c`; one `push_back` changes the slot at the old count and the
count, and nothing else. -/
theorem C14_arena_non_invalidation {τ : Type} (s n : Nat) (zero : τ)
    (v0 v v1 : SparseVector τ) (vs0 vs : List τ) (hs : 1 ≤ s) (hn : n + s ≤ WORD)
    (h0 : SparseVector.construct zero true n = .ok v0)
    (hv : SparseVector.pushAll s v0 vs0 = .ok v)
    (hv1 : SparseVector.pushAll s v vs = .ok v1) :
    (∀ i < v.cursor_, v1.get i = v.get i)
    ∧ (∀ (x : τ) (v2 : SparseVector τ), SparseVector.push_back s v x = .ok v2 →
        v2.cursor_ = v.cursor_ + 1 ∧ v2.length_ = v.length_ ∧ v2.get v.cursor_ = x
          ∧ ∀ j, j ≠ v.cursor_ → v2.get j = v.get j) := by
  obtain ⟨hl0, hc0⟩ := SparseVector.construct_ok zero n v0 h0
  obtain ⟨_, hl, hinv, _, _, _⟩ := SparseVector.pushAll_spec s hs vs0 v0 v
    (by rw [hl0]; exact hn) (by rw [hc0, hl0]; omega) hv
  have hw : v.length_ + s ≤ WORD := by rw [hl, hl0]; exact hn
  constructor
  · intro i hi
    exact (SparseVector.pushAll_spec s hs vs v v1 hw hinv hv1).2.2.2.2.1 i hi
  · intro x v2 hp
    obtain ⟨_, hv2⟩ := SparseVector.push_back_inv s v v2 x hs hw hinv hp
    subst hv2
    refine ⟨rfl, rfl, by simp [SparseVector.get], ?_⟩
    intro j hj
    simp [SparseVector.get, hj]

/-- C14 on a vector of 4-byte elements with a reservation of 16 bytes: after the appends
7, 8 the count is 2; the further append 9 leaves slots 0 and 1 as they were. -/
theorem C14_arena_non_invalidation_witness :
    SparseVector.get (⟨fun i => if i = 2 then 9 else if i = 1 then 8 else
        if i = 0 then 7 else 0, 16, 3⟩ : SparseVector Nat) 1
      = SparseVector.get (⟨fun i => if i = 1 then 8 else if i = 0 then 7 else 0, 16, 2⟩ :
          SparseVector Nat) 1 :=
  (C14_arena_non_invalidation 4 16 (0 : Nat) ⟨fun _ => 0, 16, 0⟩
    ⟨fun i => if i = 1 then 8 else if i = 0 then 7 else 0, 16, 2⟩
    ⟨fun i => if i = 2 then 9 else if i = 1 then 8 else if i = 0 then 7 else 0, 16, 3⟩
    [7, 8] [9] (by decide) (by decide) rfl rfl rfl).1 1 (by decide)

/-- C15 (amended): a vector constructed with a reservation of `n` bytes, for elements of
`sizeof(T) = s` bytes, accepts the first `n / s` (rounded down) `push_back` calls; a
`push_back` at a count `c` with `c * s >= n` fails fatally; when `s` divides `n` exactly
`n / s` appends are accepted, the next one is fatal. A constructor whose `mmap` fails is
fatal. -/
theorem C15_arena_bound {τ : Type} (s n : Nat) (zero : τ) (v0 : SparseVector τ)
    (hs : 1 ≤ s) (hn : n + s ≤ WORD)
    (h0 : SparseVector.construct zero true n = .ok v0) :
    (∀ vs : List τ, vs.length ≤ n / s →
        ∃ v, SparseVector.pushAll s v0 vs = .ok v ∧ v.cursor_ = vs.length)
    ∧ (∀ (vs : List τ) (v : SparseVector τ) (x : τ),
        SparseVector.pushAll s v0 vs = .ok v → n ≤ vs.length * s →
        SparseVector.push_back s v x = .fatal)
    ∧ (s ∣ n → ∀ vs : List τ, vs.length = n / s + 1 →
        SparseVector.pushAll s v0 vs = .fatal)
    ∧ SparseVector.construct zero false n = .fatal := by
  obtain ⟨hl0, hc0⟩ := SparseVector.construct_ok zero n v0 h0
  have hw0 : v0.length_ + s ≤ WORD := by rw [hl0]; exact hn
  have hinv0 : v0.cursor_ * s < v0.length_ + s := by rw [hc0, hl0]; omega
  have hfits : ∀ vs : List τ, vs.length ≤ n / s →
      ∃ v, SparseVector.pushAll s v0 vs = .ok v ∧ v.cursor_ = vs.length := by
    intro vs hlen
    have h1 : vs.length * s ≤ n / s * s := Nat.mul_le_mul_right s hlen
    have h2 : n / s * s ≤ n := Nat.div_mul_le_self n s
    obtain ⟨v, hv⟩ := SparseVector.pushAll_fits s hs vs v0 hw0
      (by rw [hc0, hl0, Nat.zero_add]; omega)
    refine ⟨v, hv, ?_⟩
    rw [(SparseVector.pushAll_spec s hs vs v0 v hw0 hinv0 hv).1, hc0, Nat.zero_add]
  have hfatal : ∀ (vs : List τ) (v : SparseVector τ) (x : τ),
      SparseVector.pushAll s v0 vs = .ok v → n ≤ vs.length * s →
      SparseVector.push_back s v x = .fatal := by
    intro vs v x hv hfull
    obtain ⟨hc, hl, hinv, _, _, _⟩ := SparseVector.pushAll_spec s hs vs v0 v hw0 hinv0 hv
    rw [hc0, Nat.zero_add] at hc
    apply SparseVector.push_back_fatal
    · rw [hl, hl0] at hinv; omega
    · rw [hl, hl0, hc]; exact hfull
  refine ⟨hfits, hfatal, ?_, rfl⟩
  intro hdiv vs hlen
  obtain ⟨a, x, rfl⟩ : ∃ a x, vs = a ++ [x] := by
    have hne : vs ≠ [] := by
      intro e; rw [e] at hlen; simp at hlen
    exact ⟨vs.dropLast, vs.getLast hne, (List.dropLast_append_getLast hne).symm⟩
  have hla : a.length = n / s := by simpa using hlen
  obtain ⟨v, hv, _⟩ := hfits a (by omega)
  rw [SparseVector.pushAll_append, hv]
  simp only [Res.ok_bind, SparseVector.pushAll]
  rw [hfatal a v x hv (by rw [hla, Nat.div_mul_cancel hdiv])]
  rfl

/-- C15 (amended) for 1-byte elements and a reservation of 1000 bytes: 1000 appends
succeed, the 1001st is fatal. -/
theorem C15_arena_bound_witness :
    (∃ v, SparseVector.pushAll 1 (⟨fun _ => 0, 1000, 0⟩ : SparseVector Nat)
        (List.replicate 1000 5) = .ok v ∧ v.cursor_ = (List.replicate 1000 5).length)
    ∧ SparseVector.pushAll 1 (⟨fun _ => 0, 1000, 0⟩ : SparseVector Nat)
        (List.replicate 1001 5) = .fatal :=
  ⟨(C15_arena_bound 1 1000 (0 : Nat) ⟨fun _ => 0, 1000, 0⟩ (by decide) (by decide) rfl).1
      (List.replicate 1000 5) (le_of_eq ((List.length_replicate _ _).trans (by decide))),
   (C15_arena_bound 1 1000 (0 : Nat) ⟨fun _ => 0, 1000, 0⟩ (by decide) (by decide) rfl).2.2.1
      (by decide) (List.replicate 1001 5) ((List.length_replicate _ _).trans (by decide))⟩

set_option maxRecDepth 100000 in
/-- C15 as stated fails: with 4-byte elements and a reservation of 8, the third append is
fatal, not the ninth; with a reservation of 1000, appending 1000 elements does not
succeed: the 251st append is fatal. -/
theorem C15_counterexample :
    SparseVector.construct (0 : Nat) true 8 = .ok ⟨fun _ => 0, 8, 0⟩
    ∧ (SparseVector.pushAll 4 (⟨fun _ => 0, 8, 0⟩ : SparseVector Nat) [1, 2]).isOk = true
    ∧ (SparseVector.pushAll 4 (⟨fun _ => 0, 8, 0⟩ : SparseVector Nat) [1, 2, 3]).isOk
        = false
    ∧ (SparseVector.pushAll 4 (⟨fun _ => 0, 1000, 0⟩ : SparseVector Nat)
        (List.replicate 250 7)).isOk = true
    ∧ (SparseVector.pushAll 4 (⟨fun _ => 0, 1000, 0⟩ : SparseVector Nat)
        (List.replicate 251 7)).isOk = false :=
  ⟨rfl, by decide, by decide, by decide, by decide⟩

/-- Stepping an iterator that is `d` slots before the end: the loop collects the `d`
slots in order. -/
theorem iterate_from {τ : Type} (v : SparseVector τ) (hw : v.cursor_ < WORD) :
    ∀ (d c fuel : Nat), c + d = v.cursor_ → d + 1 ≤ fuel →
      iterate v fuel ⟨c⟩ = .ok ((List.range d).map fun j => v.start_ (c + j)) := by
  intro d
  induction d with
  | zero =>
    intro c fuel hc hf
    obtain ⟨fuel, rfl⟩ : ∃ k, fuel = k + 1 := ⟨fuel - 1, by omega⟩
    have he : c = v.cursor_ := by omega
    simp [iterate, SparseVectorIterator.ne, SparseVector.end_, he]
  | succ d ih =>
    intro c fuel hc hf
    obtain ⟨fuel, rfl⟩ : ∃ k, fuel = k + 1 := ⟨fuel - 1, by omega⟩
    have hne : c ≠ v.cursor_ := by omega
    have hstep : (c + 1) % WORD = c + 1 := Nat.mod_eq_of_lt (by omega)
    have hih := ih (c + 1) fuel (by omega) (by omega)
    have hlist : ((List.range (d + 1)).map fun j => v.start_ (c + j))
        = v.start_ c :: (List.range d).map fun j => v.start_ (c + 1 + j) := by
      rw [List.range_succ_eq_map, List.map_cons, List.map_map]
      congr 1
      apply List.map_congr_left
      intro j _
      show v.start_ (c + (j + 1)) = v.start_ (c + 1 + j)
      rw [show c + (j + 1) = c + 1 + j by omega]
    simp only [iterate, SparseVectorIterator.ne, SparseVector.end_, ne_eq, hne,
      not_false_eq_true, decide_True, if_true, SparseVectorIterator.operatorInc, hstep, hih,
      Res.ok_bind, hlist, SparseVectorIterator.operatorDeref, SparseVector.get]

theorem SparseVectorIterator.steps_begin (k : Nat) (hk : k < WORD) :
    ∀ c, c + k < WORD → SparseVectorIterator.steps k ⟨c⟩ = ⟨c + k⟩ := by
  induction k with
  | zero => intro c _; rfl
  | succ k ih =>
    intro c hc
    have hstep : (c + 1) % WORD = c + 1 := Nat.mod_eq_of_lt (by omega)
    simp only [SparseVectorIterator.steps, SparseVectorIterator.operatorInc, hstep]
    rw [ih (by omega) (c + 1) (by omega)]
    congr 1
    omega

/-- C16: after the successful appends `v_0, ..., v_(k-1)` to a fresh vector, `get(i) = v_i`
for every `i < k`; an iterator stepped from `begin()` differs from `end()` after fewer
than `k` steps and equals it after `k` steps; the loop from `begin()` to `end()` yields
`v_0, ..., v_(k-1)` in this order, and so does every further loop from a fresh `begin()`,
whatever its iteration budget. -/
theorem C16_arena_iteration {τ : Type} (s n : Nat) (zero : τ) (v0 v : SparseVector τ)
    (vs : List τ) (hs : 1 ≤ s) (hn : n + s ≤ WORD)
    (h0 : SparseVector.construct zero true n = .ok v0)
    (hv : SparseVector.pushAll s v0 vs = .ok v) :
    (∀ i, ∀ hi : i < vs.length, v.get i = vs[i])
    ∧ (∀ j < vs.length, (SparseVectorIterator.steps j v.begin).ne v.end_ = true)
    ∧ SparseVectorIterator.steps vs.length v.begin = v.end_
    ∧ (∀ fuel, vs.length + 1 ≤ fuel → iterate v fuel v.begin = .ok vs)
    ∧ (∀ fuel1 fuel2, vs.length + 1 ≤ fuel1 → vs.length + 1 ≤ fuel2 →
        iterate v fuel1 v.begin = iterate v fuel2 v.begin) := by
  obtain ⟨hl0, hc0⟩ := SparseVector.construct_ok zero n v0 h0
  obtain ⟨hc, hl, hinv, _, _, hslots⟩ := SparseVector.pushAll_spec s hs vs v0 v
    (by rw [hl0]; exact hn) (by rw [hc0, hl0]; omega) hv
  rw [hc0, Nat.zero_add] at hc
  have hle : v.cursor_ ≤ v.cursor_ * s := Nat.le_mul_of_pos_right _ hs
  have hw : v.cursor_ < WORD := by rw [hl, hl0] at hinv; omega
  have hget : ∀ i, ∀ hi : i < vs.length, v.get i = vs[i] := by
    intro i hi
    have := hslots i hi
    rw [hc0, Nat.zero_add] at this
    exact this
  have hiter : ∀ fuel, vs.length + 1 ≤ fuel → iterate v fuel v.begin = .ok vs := by
    intro fuel hf
    have h := iterate_from v hw v.cursor_ 0 fuel (by omega) (by omega)
    rw [show v.begin = ⟨0⟩ from rfl, h]
    congr 1
    apply List.ext_getElem
    · simp [hc]
    · intro i h1 h2
      simp only [List.getElem_map, List.getElem_range, Nat.zero_add]
      exact hget i h2
  refine ⟨hget, ?_, ?_, hiter, ?_⟩
  · intro j hj
    rw [show v.begin = ⟨0⟩ from rfl, SparseVectorIterator.steps_begin j (by omega) 0 (by omega)]
    simp only [SparseVectorIterator.ne, SparseVector.end_, Nat.zero_add, ne_eq,
      decide_eq_true_eq]
    omega
  · rw [show v.begin = ⟨0⟩ from rfl,
      SparseVectorIterator.steps_begin vs.length (by omega) 0 (by omega), Nat.zero_add, ← hc]
    rfl
  · intro fuel1 fuel2 h1 h2
    rw [hiter fuel1 h1, hiter fuel2 h2]

/-- C16 for the appends 7, 8, 9 of 4-byte elements to a vector with a reservation of 16
bytes. -/
theorem C16_arena_iteration_witness :
    iterate (⟨fun i => if i = 2 then 9 else if i = 1 then 8 else if i = 0 then 7 else 0,
        16, 3⟩ : SparseVector Nat) 4 ⟨0⟩ = .ok [7, 8, 9] :=
  (C16_arena_iteration 4 16 (0 : Nat) ⟨fun _ => 0, 16, 0⟩
    ⟨fun i => if i = 2 then 9 else if i = 1 then 8 else if i = 0 then 7 else 0, 16, 3⟩
    [7, 8, 9] (by decide) (by decide) rfl rfl).2.2.2.1 4 (by decide)

/-- C20, evaluated: with 3-byte elements and a reservation of 4 bytes the second
`push_back` passes its guard (`1 * 3 < 4`) although the element ends at byte 6, beyond the
reservation; with a reservation of one page of 4096 bytes the `push_back` at count 1365
passes (`4095 < 4096`) and its element ends at byte 4098. -/
theorem C20_guard_passes_write_overruns :
    (SparseVector.push_back 3 (⟨fun _ => 0, 4, 1⟩ : SparseVector Nat) 8).isOk = true
    ∧ ¬ ((1 + 1) * 3 ≤ 4)
    ∧ (SparseVector.pushAll 3 (⟨fun _ => 0, 4, 0⟩ : SparseVector Nat) [7, 8]).isOk = true
    ∧ (SparseVector.push_back 3 (⟨fun _ => 0, 4096, 1365⟩ : SparseVector Nat) 8).isOk = true
    ∧ ¬ ((1365 + 1) * 3 ≤ 4096) := by
  decide

/-! ## Coherence of the pip cache -/

/-- The pip that `getPipByName` returns is the entry of the returned cache under the
name. -/
theorem getPipByName_find (arch : Arch) (c c1 : Cache PipId) (name : Int) (p : PipId)
    (h : getPipByName arch c name = .ok (p, c1)) : c1.find name = some p := by
  unfold getPipByName at h
  cases hc : c.find name with
  | some r =>
    rw [hc] at h
    injection h with h
    injection h with hp hcc
    rw [← hcc, ← hp]
    exact hc
  | none =>
    rw [hc] at h
    simp only at h
    cases hs : split_identifier_name (arch.str name) with
    | fatal => rw [hs] at h; cases h
    | ub => rw [hs] at h; cases h
    | nofuel => rw [hs] at h; cases h
    | ok r =>
      rw [hs] at h
      simp only [Res.ok_bind] at h
      cases hfill : fillPipCache arch
          (arch.allPipRange (r.1 + arch.width * r.2.1) (r.1 + arch.width * r.2.1 + 1)) c with
      | fatal => rw [hfill] at h; cases h
      | ub => rw [hfill] at h; cases h
      | nofuel => rw [hfill] at h; cases h
      | ok c2 =>
        rw [hfill] at h
        simp only [Res.ok_bind] at h
        cases hfn : c2.find name with
        | none => rw [hfn] at h; cases h
        | some ret =>
          rw [hfn] at h
          injection h with h
          injection h with hp hcc
          rw [← hcc, ← hp]
          exact hfn

/-- C17: pip cache coherence. In every cache that `getPipByName` calls build from the empty
cache, each entry `(n, p)` satisfies `getPipName(p) = n`; and whenever `getPipByName(name)`
returns a pip `p` from such a cache, on the cache-hit path or after materialising the
tile, `getPipName(p) = name`. -/
theorem C17_pip_cache_coherence (arch : Arch) (pip_by_name : Cache PipId)
    (hreach : PipCacheReachable arch pip_by_name) :
    (∀ n p, pip_by_name.find n = some p → getPipName arch p = .ok n)
    ∧ (∀ (name : Int) (p : PipId) (c1 : Cache PipId),
        getPipByName arch pip_by_name name = .ok (p, c1) →
        getPipName arch p = .ok name
          ∧ ∀ n q, c1.find n = some q → getPipName arch q = .ok n) := by
  constructor
  · intro n p hf
    exact (pip_cache_sound arch pip_by_name hreach n p hf).1
  · intro name p c1 hcall
    have hreach1 : PipCacheReachable arch c1 := .call pip_by_name c1 name p hreach hcall
    have hf := getPipByName_find arch pip_by_name c1 name p hcall
    exact ⟨(pip_cache_sound arch c1 hreach1 name p hf).1,
      fun n q hq => (pip_cache_sound arch c1 hreach1 n q hq).1⟩

/-- C17 on the demo device: from the cache that resolving `"X0/Y0/A.->.B"` (identifier 17)
has filled with the six pips of tile `(0,0)`, resolving the name again hits the cache and
returns pip 0, whose name is identifier 17. -/
theorem C17_pip_cache_coherence_witness :
    getPipName Demo.arch ⟨⟨0, 0⟩, .PIP_KIND_PIP, 0, -1⟩ = .ok 17 :=
  ((C17_pip_cache_coherence Demo.arch
      [(23, ⟨⟨0, 0⟩, .PIP_KIND_PORT, 0, 1⟩), (22, ⟨⟨0, 0⟩, .PIP_KIND_PORT, 0, 0⟩),
       (21, ⟨⟨0, 0⟩, .PIP_KIND_PIP, 3, -1⟩), (20, ⟨⟨0, 0⟩, .PIP_KIND_PIP, 2, -1⟩),
       (19, ⟨⟨0, 0⟩, .PIP_KIND_PIP, 1, -1⟩), (17, ⟨⟨0, 0⟩, .PIP_KIND_PIP, 0, -1⟩)]
      (.call [] _ 17 ⟨⟨0, 0⟩, .PIP_KIND_PIP, 0, -1⟩ .empty (by decide))).2
    17 ⟨⟨0, 0⟩, .PIP_KIND_PIP, 0, -1⟩
      [(23, ⟨⟨0, 0⟩, .PIP_KIND_PORT, 0, 1⟩), (22, ⟨⟨0, 0⟩, .PIP_KIND_PORT, 0, 0⟩),
       (21, ⟨⟨0, 0⟩, .PIP_KIND_PIP, 3, -1⟩), (20, ⟨⟨0, 0⟩, .PIP_KIND_PIP, 2, -1⟩),
       (19, ⟨⟨0, 0⟩, .PIP_KIND_PIP, 1, -1⟩), (17, ⟨⟨0, 0⟩, .PIP_KIND_PIP, 0, -1⟩)]
      (by decide)).1

/-! ## Bounds and termination of the pip iterator -/

theorem readAt_some_range {α : Type} (a : List α) (i : Int) (v : α)
    (h : readAt a i = some v) : 0 ≤ i ∧ i < (a.length : Int) := by
  unfold readAt at h
  by_cases hneg : i < 0
  · rw [if_pos hneg] at h; cases h
  · rw [if_neg hneg] at h
    have := (List.getElem?_eq_some_iff.mp h).1
    omega

/-- What the port-skipping loop leaves behind: stage END with cursor 0, or stage PORTS
with the cursor on a connected port cross-reference at or after the starting cursor. -/
theorem skipPorts_result (ttw : TileTypeWirePOD) (tile : TilePOD) :
    ∀ (fuel : Nat) (c : Int) (r : Stage × Int), skipPorts ttw tile fuel c = .ok r →
      (r.1 = .STAGE_END ∧ r.2 = 0)
      ∨ (r.1 = .STAGE_PORTS ∧ c ≤ r.2 ∧ 0 ≤ r.2 ∧ r.2 < (ttw.port_xrefs.length : Int)
          ∧ ∃ x conn, readAt ttw.port_xrefs r.2 = some x
              ∧ readAt tile.conns x.port_idx = some conn ∧ conn.port_idx ≠ -1) := by
  intro fuel
  induction fuel with
  | zero => intro c r h; simp [skipPorts] at h
  | succ fuel ih =>
    intro c r h
    unfold skipPorts at h
    by_cases hend : c = (ttw.port_xrefs.length : Int)
    · rw [if_pos hend] at h
      injection h with h
      subst h
      exact Or.inl ⟨rfl, rfl⟩
    · rw [if_neg hend] at h
      cases hx : readAt ttw.port_xrefs c with
      | none => rw [hx] at h; cases h
      | some x =>
        rw [hx] at h
        simp only at h
        cases hconn : readAt tile.conns x.port_idx with
        | none => rw [hconn] at h; cases h
        | some conn =>
          rw [hconn] at h
          simp only at h
          have hrange := readAt_some_range _ _ _ hx
          by_cases hcon : conn.port_idx = -1
          · rw [if_neg (by simpa using hcon)] at h
            rcases ih (c + 1) r h with h1 | ⟨h1, h2, h3⟩
            · exact Or.inl h1
            · exact Or.inr ⟨h1, by omega, h3⟩
          · rw [if_pos hcon] at h
            injection h with h
            subst h
            exact Or.inr ⟨rfl, le_refl _, hrange.1, hrange.2, x, conn, hx, hconn, hcon⟩

theorem inc_end (arch : Arch) (f : Nat) (w : WireId) (mode : Mode) (c : Int) :
    (PipIterator.mk w mode .STAGE_END c).operatorInc arch f
      = .ok (PipIterator.mk w mode .STAGE_END (c + 1)) := by
  simp [PipIterator.operatorInc]

/-- One advance from a state whose cursor is in range (the start state included): the
wire and direction stay, the stage does not move back, and the new cursor is in range,
on a connected port cross-reference in stage PORTS. -/
theorem inc_result (arch : Arch) (w : WireId) (mode : Mode) (fuel : Nat) (stage : Stage)
    (c : Int) (it1 : PipIterator)
    (hpre : stage = .STAGE_PIPS →
      -1 ≤ c ∧ c < ((pipXrefs (arch.getTileTypeWire w) mode).length : Int))
    (h : (PipIterator.mk w mode stage c).operatorInc arch fuel = .ok it1) :
    it1.wire = w ∧ it1.mode = mode ∧ stage.rank ≤ it1.stage.rank
      ∧ (it1.stage = .STAGE_PIPS → 0 ≤ it1.cursor_index
          ∧ it1.cursor_index < ((pipXrefs (arch.getTileTypeWire w) mode).length : Int))
      ∧ (it1.stage = .STAGE_PORTS → 0 ≤ it1.cursor_index
          ∧ it1.cursor_index < ((arch.getTileTypeWire w).port_xrefs.length : Int)
          ∧ ∃ x conn, readAt (arch.getTileTypeWire w).port_xrefs it1.cursor_index = some x
              ∧ readAt (arch.getTile w.location).conns x.port_idx = some conn
              ∧ conn.port_idx ≠ -1) := by
  have hskip : ∀ c0 : Int,
      (skipPorts (arch.getTileTypeWire w) (arch.getTile w.location) fuel c0).bind
          (fun r => .ok (PipIterator.mk w mode r.1 r.2)) = .ok it1 →
      it1.wire = w ∧ it1.mode = mode ∧ 1 ≤ it1.stage.rank
        ∧ (it1.stage = .STAGE_PIPS → 0 ≤ it1.cursor_index
            ∧ it1.cursor_index < ((pipXrefs (arch.getTileTypeWire w) mode).length : Int))
        ∧ (it1.stage = .STAGE_PORTS → 0 ≤ it1.cursor_index
            ∧ it1.cursor_index < ((arch.getTileTypeWire w).port_xrefs.length : Int)
            ∧ ∃ x conn, readAt (arch.getTileTypeWire w).port_xrefs it1.cursor_index = some x
                ∧ readAt (arch.getTile w.location).conns x.port_idx = some conn
                ∧ conn.port_idx ≠ -1) := by
    intro c0 hb
    cases hr : skipPorts (arch.getTileTypeWire w) (arch.getTile w.location) fuel c0 with
    | fatal => rw [hr] at hb; cases hb
    | ub => rw [hr] at hb; cases hb
    | nofuel => rw [hr] at hb; cases hb
    | ok r =>
      rw [hr] at hb
      simp only [Res.ok_bind] at hb
      injection hb with hb
      subst hb
      rcases skipPorts_result _ _ fuel c0 r hr with ⟨h1, _⟩ | ⟨h1, _, h3, h4, h5⟩
      · refine ⟨rfl, rfl, ?_, ?_, ?_⟩
        · show 1 ≤ r.1.rank
          rw [h1]; decide
        · intro hst
          have : r.1 = .STAGE_PIPS := hst
          rw [h1] at this; cases this
        · intro hst
          have : r.1 = .STAGE_PORTS := hst
          rw [h1] at this; cases this
      · refine ⟨rfl, rfl, ?_, ?_, ?_⟩
        · show 1 ≤ r.1.rank
          rw [h1]; decide
        · intro hst
          have : r.1 = .STAGE_PIPS := hst
          rw [h1] at this; cases this
        · intro _
          exact ⟨h3, h4, h5⟩
  cases stage with
  | STAGE_PIPS =>
    obtain ⟨hlo, hhi⟩ := hpre rfl
    by_cases hlast : c + 1 = ((pipXrefs (arch.getTileTypeWire w) mode).length : Int)
    · rw [inc_pips_last arch fuel w mode c hlast] at h
      obtain ⟨h1, h2, h3, h4, h5⟩ := hskip 0 h
      exact ⟨h1, h2, Nat.zero_le _, h4, h5⟩
    · rw [inc_pips_more arch fuel w mode c hlast] at h
      injection h with h
      subst h
      refine ⟨rfl, rfl, le_refl _, ?_, ?_⟩
      · intro _
        show 0 ≤ c + 1 ∧ c + 1 < _
        omega
      · intro hst; cases hst
  | STAGE_PORTS =>
    rw [inc_ports arch fuel w mode c] at h
    obtain ⟨h1, h2, h3, h4, h5⟩ := hskip (c + 1) h
    exact ⟨h1, h2, h3, h4, h5⟩
  | STAGE_END =>
    rw [inc_end arch fuel w mode c] at h
    injection h with h
    subst h
    refine ⟨rfl, rfl, le_refl _, ?_, ?_⟩
    · intro hst; cases hst
    · intro hst; cases hst

/-- Every state that advances reach from the start state has its cursor in range. -/
theorem reached_inv (arch : Arch) (w : WireId) (mode : Mode) (it : PipIterator)
    (hr : Reached arch w mode it) :
    it.wire = w ∧ it.mode = mode
      ∧ (it.stage = .STAGE_PIPS → 0 ≤ it.cursor_index
          ∧ it.cursor_index < ((pipXrefs (arch.getTileTypeWire w) mode).length : Int))
      ∧ (it.stage = .STAGE_PORTS → 0 ≤ it.cursor_index
          ∧ it.cursor_index < ((arch.getTileTypeWire w).port_xrefs.length : Int)
          ∧ ∃ x conn, readAt (arch.getTileTypeWire w).port_xrefs it.cursor_index = some x
              ∧ readAt (arch.getTile w.location).conns x.port_idx = some conn
              ∧ conn.port_idx ≠ -1) := by
  induction hr with
  | first fuel it h =>
    obtain ⟨h1, h2, _, h4, h5⟩ := inc_result arch w mode fuel .STAGE_PIPS (-1) it
      (fun _ => ⟨le_refl _, by omega⟩) h
    exact ⟨h1, h2, h4, h5⟩
  | next fuel it it1 _ h ih =>
    obtain ⟨hw, hm, hp, _⟩ := ih
    obtain ⟨w0, m0, st, c⟩ := it
    simp only at hw hm hp
    subst hw
    subst hm
    obtain ⟨h1, h2, _, h4, h5⟩ := inc_result arch w0 m0 fuel st c it1
      (fun hst => by have := hp hst; omega) h
    exact ⟨h1, h2, h4, h5⟩

/-- C18: iterator bounds. Every state that one or more advances reach from the start
state (stage PIPS, cursor -1) of a traversal satisfies: in stage PIPS,
`0 <= cursor_index <` the length of the direction's pip cross-reference list; in stage
PORTS, `0 <= cursor_index < num_port_xrefs`, the port of `port_xrefs[cursor_index]` is
inside the connection table and connected; in both, `operator*` reads inside its arrays and
returns a pip. -/
theorem C18_iterator_bounds (arch : Arch) (w : WireId) (mode : Mode) (it : PipIterator)
    (hr : Reached arch w mode it) :
    (it.stage = .STAGE_PIPS → 0 ≤ it.cursor_index
        ∧ it.cursor_index < ((if mode = .MODE_UPHILL then (arch.getTileTypeWire w).pip_dst_xrefs
            else (arch.getTileTypeWire w).pip_src_xrefs).length : Int))
    ∧ (it.stage = .STAGE_PORTS → 0 ≤ it.cursor_index
        ∧ it.cursor_index < ((arch.getTileTypeWire w).port_xrefs.length : Int)
        ∧ ∃ x conn, readAt (arch.getTileTypeWire w).port_xrefs it.cursor_index = some x
            ∧ readAt (arch.getTile w.location).conns x.port_idx = some conn
            ∧ conn.port_idx ≠ -1)
    ∧ (it.stage ≠ .STAGE_END → ∃ p, it.operatorDeref arch = .ok p) := by
  obtain ⟨hw, hm, hp, hq⟩ := reached_inv arch w mode it hr
  refine ⟨hp, hq, ?_⟩
  intro hne
  obtain ⟨w0, m0, st, c⟩ := it
  simp only at hw hm hp hq hne
  subst hw
  subst hm
  cases st with
  | STAGE_END => exact absurd rfl hne
  | STAGE_PIPS =>
    obtain ⟨h0, h1⟩ := hp rfl
    obtain ⟨i, hi⟩ := readAt_inRange (pipXrefs (arch.getTileTypeWire w0) m0) c h0 h1
    unfold pipXrefs at hi
    cases m0 with
    | MODE_UPHILL =>
      have hi2 : readAt (arch.getTileTypeWire w0).pip_dst_xrefs c = some i := by
        simpa using hi
      exact ⟨⟨w0.location, .PIP_KIND_PIP, i, -1⟩,
        by simp [PipIterator.operatorDeref, readRes, hi2, PipId.invalid]⟩
    | MODE_DOWNHILL =>
      have hi2 : readAt (arch.getTileTypeWire w0).pip_src_xrefs c = some i := by
        simpa using hi
      exact ⟨⟨w0.location, .PIP_KIND_PIP, i, -1⟩,
        by simp [PipIterator.operatorDeref, readRes, hi2, PipId.invalid]⟩
  | STAGE_PORTS =>
    obtain ⟨_, _, x, conn, hx, hconn, _⟩ := hq rfl
    cases m0 with
    | MODE_UPHILL =>
      exact ⟨⟨w0.location, .PIP_KIND_PORT, x.port_idx, x.wire_idx⟩,
        by simp [PipIterator.operatorDeref, readRes, hx, PipId.invalid]⟩
    | MODE_DOWNHILL =>
      exact ⟨⟨⟨conn.tile_x, conn.tile_y⟩, .PIP_KIND_PORT, conn.port_idx, x.wire_idx⟩,
        by simp [PipIterator.operatorDeref, readRes, hx, hconn, PipId.invalid]⟩

/-- C18 on the demo device: UPHILL on wire `C` of tile `(0,0)`; the second advance skips
the unconnected first port cross-reference and stops in stage PORTS at cursor 1. -/
theorem C18_iterator_bounds_witness :
    (0 : Int) ≤ 1
    ∧ (1 : Int) < ((Demo.arch.getTileTypeWire ⟨⟨0, 0⟩, 2⟩).port_xrefs.length : Int)
    ∧ ∃ x conn, readAt (Demo.arch.getTileTypeWire ⟨⟨0, 0⟩, 2⟩).port_xrefs 1 = some x
        ∧ readAt (Demo.arch.getTile ⟨0, 0⟩).conns x.port_idx = some conn
        ∧ conn.port_idx ≠ -1 :=
  (C18_iterator_bounds Demo.arch ⟨⟨0, 0⟩, 2⟩ .MODE_UPHILL
    ⟨⟨⟨0, 0⟩, 2⟩, .MODE_UPHILL, .STAGE_PORTS, 1⟩
    (.next 7 ⟨⟨⟨0, 0⟩, 2⟩, .MODE_UPHILL, .STAGE_PIPS, 0⟩ _
      (.first 7 _ (by decide)) (by decide))).2.1 rfl

/-- With every port cross-reference inside the connection table, the port-skipping loop
started at cursor `c` returns within `num_port_xrefs - c + 1` iterations. -/
theorem skipPorts_total (ttw : TileTypeWirePOD) (tile : TilePOD)
    (hok : ∀ x ∈ ttw.port_xrefs, 0 ≤ x.port_idx ∧ x.port_idx < (tile.conns.length : Int)) :
    ∀ (d c g : Nat), c + d = ttw.port_xrefs.length → d + 1 ≤ g →
      ∃ r, skipPorts ttw tile g (c : Int) = .ok r := by
  intro d
  induction d with
  | zero =>
    intro c g hc hg
    obtain ⟨g, rfl⟩ : ∃ k, g = k + 1 := ⟨g - 1, by omega⟩
    have he : (c : Int) = (ttw.port_xrefs.length : Int) := by omega
    exact ⟨(.STAGE_END, 0), by simp [skipPorts, he]⟩
  | succ d ih =>
    intro c g hc hg
    obtain ⟨g, rfl⟩ : ∃ k, g = k + 1 := ⟨g - 1, by omega⟩
    have hne : ¬ ((c : Int) = (ttw.port_xrefs.length : Int)) := by omega
    have hlt : c < ttw.port_xrefs.length := by omega
    have hx : readAt ttw.port_xrefs (c : Int) = some ttw.port_xrefs[c] := by
      have hneg : ¬ ((c : Int) < 0) := by omega
      simp only [readAt, hneg, if_false, Int.toNat_ofNat, List.getElem?_eq_getElem hlt]
    obtain ⟨hx0, hx1⟩ := hok ttw.port_xrefs[c] (List.getElem_mem hlt)
    obtain ⟨conn, hconn⟩ := readAt_inRange tile.conns _ hx0 hx1
    unfold skipPorts
    rw [if_neg hne, hx]
    simp only [hconn]
    by_cases hcon : conn.port_idx = -1
    · rw [if_neg (by simpa using hcon)]
      have := ih (c + 1) g (by omega) (by omega)
      simpa using this
    · rw [if_pos hcon]
      exact ⟨_, rfl⟩

/-- One advance from a state whose cursor is in range (the start state included) returns,
given a budget of `num_port_xrefs + 1` iterations for the loop. -/
theorem inc_total (arch : Arch) (w : WireId) (mode : Mode) (fuel : Nat) (stage : Stage)
    (c : Int) (hok : WireOk arch w)
    (hfuel : (arch.getTileTypeWire w).port_xrefs.length + 1 ≤ fuel)
    (hports : stage = .STAGE_PORTS →
      0 ≤ c ∧ c < ((arch.getTileTypeWire w).port_xrefs.length : Int)) :
    ∃ it1, (PipIterator.mk w mode stage c).operatorInc arch fuel = .ok it1 := by
  cases stage with
  | STAGE_END => exact ⟨_, inc_end arch fuel w mode c⟩
  | STAGE_PIPS =>
    by_cases hlast : c + 1 = ((pipXrefs (arch.getTileTypeWire w) mode).length : Int)
    · rw [inc_pips_last arch fuel w mode c hlast]
      obtain ⟨r, hr⟩ := skipPorts_total _ _ hok (arch.getTileTypeWire w).port_xrefs.length 0
        fuel (by omega) hfuel
      rw [show ((0 : Nat) : Int) = 0 from rfl] at hr
      rw [hr]
      exact ⟨_, rfl⟩
    · exact ⟨_, inc_pips_more arch fuel w mode c hlast⟩
  | STAGE_PORTS =>
    obtain ⟨h0, h1⟩ := hports rfl
    rw [inc_ports arch fuel w mode c]
    obtain ⟨r, hr⟩ := skipPorts_total _ _ hok
      ((arch.getTileTypeWire w).port_xrefs.length - (c.toNat + 1)) (c.toNat + 1) fuel
      (by omega) (by omega)
    rw [show ((c.toNat + 1 : Nat) : Int) = c + 1 by omega] at hr
    rw [hr]
    exact ⟨_, rfl⟩

/-- Collecting from a state that is not at the end makes one advance per collected pip. -/
theorem collect_advances (arch : Arch) (fuel : Nat) :
    ∀ (n : Nat) (it : PipIterator) (l : List PipId), it.stage ≠ .STAGE_END →
      collect arch fuel n it = .ok l → advanceToEnd arch fuel n it = .ok l.length := by
  intro n
  induction n with
  | zero => intro it l _ h; simp [collect] at h
  | succ n ih =>
    intro it l hne h
    unfold collect at h
    rw [if_neg hne] at h
    cases hd : it.operatorDeref arch with
    | fatal => rw [hd] at h; cases h
    | ub => rw [hd] at h; cases h
    | nofuel => rw [hd] at h; cases h
    | ok p =>
      rw [hd] at h
      simp only [Res.ok_bind] at h
      cases hi : it.operatorInc arch fuel with
      | fatal => rw [hi] at h; cases h
      | ub => rw [hi] at h; cases h
      | nofuel => rw [hi] at h; cases h
      | ok it1 =>
        rw [hi] at h
        simp only [Res.ok_bind] at h
        cases hc : collect arch fuel n it1 with
        | fatal => rw [hc] at h; cases h
        | ub => rw [hc] at h; cases h
        | nofuel => rw [hc] at h; cases h
        | ok ps =>
          rw [hc] at h
          simp only [Res.ok_bind] at h
          injection h with h
          subst h
          unfold advanceToEnd
          rw [hi]
          simp only [Res.ok_bind]
          by_cases hend : it1.stage = .STAGE_END
          · rw [if_pos hend]
            cases n with
            | zero => simp [collect] at hc
            | succ n =>
              unfold collect at hc
              rw [if_pos hend] at hc
              injection hc with hc
              subst hc
              rfl
          · rw [if_neg hend, ih it1 ps hend hc]
            rfl

/-- C19: termination. For a wire whose port cross-references lie inside the connection
table of its tile: the port-skipping loop started at cursor `c` returns within
`num_port_xrefs - c + 1` iterations; every advance from the start state or from a state
reached from it returns, and the stage does not move back (PIPS, PORTS, END); a traversal
reaches stage END after at most (pip cross-reference count + port cross-reference
count + 1) advances. -/
theorem C19_advance_terminates (arch : Arch) (fuel : Nat) (w : WireId) (mode : Mode)
    (hok : WireOk arch w)
    (hfuel : (pipXrefs (arch.getTileTypeWire w) mode).length
      + (arch.getTileTypeWire w).port_xrefs.length + 1 ≤ fuel) :
    (∀ c g : Nat, c ≤ (arch.getTileTypeWire w).port_xrefs.length →
        (arch.getTileTypeWire w).port_xrefs.length - c + 1 ≤ g →
        ∃ r, skipPorts (arch.getTileTypeWire w) (arch.getTile w.location) g (c : Int) = .ok r)
    ∧ (∃ it1, (PipIterator.start w mode).operatorInc arch fuel = .ok it1
        ∧ (PipIterator.start w mode).stage.rank ≤ it1.stage.rank)
    ∧ (∀ it, Reached arch w mode it →
        ∃ it1, it.operatorInc arch fuel = .ok it1 ∧ it.stage.rank ≤ it1.stage.rank)
    ∧ (∃ k, advanceToEnd arch fuel (fuel + 1) (PipIterator.start w mode) = .ok k
        ∧ k ≤ (pipXrefs (arch.getTileTypeWire w) mode).length
            + (arch.getTileTypeWire w).port_xrefs.length + 1) := by
  have hf2 : (arch.getTileTypeWire w).port_xrefs.length + 1 ≤ fuel := by omega
  refine ⟨?_, ?_, ?_, ?_⟩
  · intro c g hc hg
    exact skipPorts_total _ _ hok ((arch.getTileTypeWire w).port_xrefs.length - c) c g
      (by omega) hg
  · obtain ⟨it1, h1⟩ := inc_total arch w mode fuel .STAGE_PIPS (-1) hok hf2
      (fun h => by cases h)
    exact ⟨it1, h1, Nat.zero_le _⟩
  · intro it hr
    obtain ⟨hw, hm, hp, hq⟩ := reached_inv arch w mode it hr
    obtain ⟨w0, m0, st, c⟩ := it
    simp only at hw hm hp hq
    subst hw
    subst hm
    obtain ⟨it1, h1⟩ := inc_total arch w0 m0 fuel st c hok hf2
      (fun h => ⟨(hq h).1, (hq h).2.1⟩)
    refine ⟨it1, h1, ?_⟩
    exact (inc_result arch w0 m0 fuel st c it1
      (fun hst => by have := hp hst; omega) h1).2.2.1
  · have ht := traverse_eq arch fuel w mode hok hfuel
    have hlen : (pipPart w (pipXrefs (arch.getTileTypeWire w) mode)
        ++ portPart (arch.getTile w.location) w mode (arch.getTileTypeWire w).port_xrefs).length
        ≤ (pipXrefs (arch.getTileTypeWire w) mode).length
          + (arch.getTileTypeWire w).port_xrefs.length := by
      have := List.length_filterMap_le
        (fun x => (connectedConn (arch.getTile w.location) x).map (portPip w mode x))
        (arch.getTileTypeWire w).port_xrefs
      simp only [List.length_append, pipPart, List.length_map, portPart]
      omega
    unfold traverse at ht
    cases hi : (PipIterator.start w mode).operatorInc arch fuel with
    | fatal => rw [hi] at ht; cases ht
    | ub => rw [hi] at ht; cases ht
    | nofuel => rw [hi] at ht; cases ht
    | ok it0 =>
      rw [hi] at ht
      simp only [Res.ok_bind] at ht
      unfold advanceToEnd
      rw [hi]
      simp only [Res.ok_bind]
      by_cases hend : it0.stage = .STAGE_END
      · rw [if_pos hend]
        exact ⟨1, rfl, by omega⟩
      · rw [if_neg hend, collect_advances arch fuel fuel it0 _ hend ht]
        exact ⟨_, rfl, by omega⟩

/-- C19 on the demo device: the traversal of wire `C` of tile `(0,0)`, UPHILL, with one
pip cross-reference and six port cross-references, reaches stage END within 8 advances. -/
theorem C19_advance_terminates_witness :
    ∃ k, advanceToEnd Demo.arch 8 (8 + 1) (PipIterator.start ⟨⟨0, 0⟩, 2⟩ .MODE_UPHILL) = .ok k
      ∧ k ≤ (pipXrefs (Demo.arch.getTileTypeWire ⟨⟨0, 0⟩, 2⟩) .MODE_UPHILL).length
          + (Demo.arch.getTileTypeWire ⟨⟨0, 0⟩, 2⟩).port_xrefs.length + 1 :=
  (C19_advance_terminates Demo.arch 8 ⟨⟨0, 0⟩, 2⟩ .MODE_UPHILL (by decide) (by decide)).2.2.2

end Leuctra
